import Mathlib

/-!
Verification of the reconciliation engine of `wardensync` (`src/vault_sync.py`,
`src/bw_client.py`) via a shallow embedding in Lean 4.

Modelling conventions:
* A vault item (a Python/JSON structure) is a `JVal`.  Python dicts are
  insertion-ordered association lists with unique keys; `objGet` reads the
  first matching key, `objSet` updates the first matching key in place or
  appends (exactly the semantics of `d[k] = v`).
* Strings are Lean `String`s (a `List Char` model).  `str.strip()` /
  `str.lower()` are `pyStrip` / `pyLower`; `lower` is modelled on the basic
  Latin range (Lean's `Char.toLower`), which agrees with Python on the ASCII
  data the engine handles.
* JSON numbers are modelled as integers (the engine never does arithmetic on
  them; `match`/`type` fields are small ints).
* Places where CPython would raise `TypeError`/`AttributeError` (e.g. calling
  `.get` on a non-dict, or comparing a sort key of `None` against an `int`)
  are totalised; each such spot is marked with a comment.  No claim below
  depends on an input that crashes CPython.
* Thread pools: each parallel phase submits independent tasks and joins before
  the next phase; `as_completed` only permutes the order in which results are
  appended.  The embedding processes results in submission order; all
  properties proved are insensitive to that permutation.
-/

/-- JSON-like values: the data handled by the Bitwarden CLI wrapper. -/
inductive JVal where
  | null : JVal
  | bool (b : Bool) : JVal
  | num (n : Int) : JVal
  | str (s : String) : JVal
  | arr (xs : List JVal) : JVal
  | obj (kvs : List (String × JVal)) : JVal
  deriving Repr

namespace JVal

mutual
/-- Decidable structural equality on `JVal`. -/
def deq : (a b : JVal) → Decidable (a = b)
  | .null, .null => .isTrue rfl
  | .null, .bool _ => .isFalse (fun h => JVal.noConfusion h)
  | .null, .num _ => .isFalse (fun h => JVal.noConfusion h)
  | .null, .str _ => .isFalse (fun h => JVal.noConfusion h)
  | .null, .arr _ => .isFalse (fun h => JVal.noConfusion h)
  | .null, .obj _ => .isFalse (fun h => JVal.noConfusion h)
  | .bool _, .null => .isFalse (fun h => JVal.noConfusion h)
  | .bool a, .bool b =>
      match decEq a b with
      | .isTrue h => .isTrue (congrArg JVal.bool h)
      | .isFalse h => .isFalse (fun hh => h (JVal.bool.inj hh))
  | .bool _, .num _ => .isFalse (fun h => JVal.noConfusion h)
  | .bool _, .str _ => .isFalse (fun h => JVal.noConfusion h)
  | .bool _, .arr _ => .isFalse (fun h => JVal.noConfusion h)
  | .bool _, .obj _ => .isFalse (fun h => JVal.noConfusion h)
  | .num _, .null => .isFalse (fun h => JVal.noConfusion h)
  | .num _, .bool _ => .isFalse (fun h => JVal.noConfusion h)
  | .num a, .num b =>
      match decEq a b with
      | .isTrue h => .isTrue (congrArg JVal.num h)
      | .isFalse h => .isFalse (fun hh => h (JVal.num.inj hh))
  | .num _, .str _ => .isFalse (fun h => JVal.noConfusion h)
  | .num _, .arr _ => .isFalse (fun h => JVal.noConfusion h)
  | .num _, .obj _ => .isFalse (fun h => JVal.noConfusion h)
  | .str _, .null => .isFalse (fun h => JVal.noConfusion h)
  | .str _, .bool _ => .isFalse (fun h => JVal.noConfusion h)
  | .str _, .num _ => .isFalse (fun h => JVal.noConfusion h)
  | .str a, .str b =>
      match decEq a b with
      | .isTrue h => .isTrue (congrArg JVal.str h)
      | .isFalse h => .isFalse (fun hh => h (JVal.str.inj hh))
  | .str _, .arr _ => .isFalse (fun h => JVal.noConfusion h)
  | .str _, .obj _ => .isFalse (fun h => JVal.noConfusion h)
  | .arr _, .null => .isFalse (fun h => JVal.noConfusion h)
  | .arr _, .bool _ => .isFalse (fun h => JVal.noConfusion h)
  | .arr _, .num _ => .isFalse (fun h => JVal.noConfusion h)
  | .arr _, .str _ => .isFalse (fun h => JVal.noConfusion h)
  | .arr xs, .arr ys =>
      match deqArr xs ys with
      | .isTrue h => .isTrue (congrArg JVal.arr h)
      | .isFalse h => .isFalse (fun hh => h (JVal.arr.inj hh))
  | .arr _, .obj _ => .isFalse (fun h => JVal.noConfusion h)
  | .obj _, .null => .isFalse (fun h => JVal.noConfusion h)
  | .obj _, .bool _ => .isFalse (fun h => JVal.noConfusion h)
  | .obj _, .num _ => .isFalse (fun h => JVal.noConfusion h)
  | .obj _, .str _ => .isFalse (fun h => JVal.noConfusion h)
  | .obj _, .arr _ => .isFalse (fun h => JVal.noConfusion h)
  | .obj xs, .obj ys =>
      match deqObj xs ys with
      | .isTrue h => .isTrue (congrArg JVal.obj h)
      | .isFalse h => .isFalse (fun hh => h (JVal.obj.inj hh))

def deqArr : (xs ys : List JVal) → Decidable (xs = ys)
  | [], [] => .isTrue rfl
  | [], _ :: _ => .isFalse (fun h => List.noConfusion h)
  | _ :: _, [] => .isFalse (fun h => List.noConfusion h)
  | x :: xs, y :: ys =>
      match deq x y, deqArr xs ys with
      | .isTrue h1, .isTrue h2 => .isTrue (by rw [h1, h2])
      | .isFalse h1, _ => .isFalse (by intro h; injection h; contradiction)
      | _, .isFalse h2 => .isFalse (by intro h; injection h; contradiction)

def deqObj : (xs ys : List (String × JVal)) → Decidable (xs = ys)
  | [], [] => .isTrue rfl
  | [], _ :: _ => .isFalse (fun h => List.noConfusion h)
  | _ :: _, [] => .isFalse (fun h => List.noConfusion h)
  | (k, v) :: xs, (k', v') :: ys =>
      match decEq k k', deq v v', deqObj xs ys with
      | .isTrue h1, .isTrue h2, .isTrue h3 => .isTrue (by rw [h1, h2, h3])
      | .isFalse h1, _, _ => .isFalse (by
          intro h
          injection h with h4 h5
          exact h1 (congrArg Prod.fst h4))
      | _, .isFalse h2, _ => .isFalse (by
          intro h
          injection h with h4 h5
          exact h2 (congrArg Prod.snd h4))
      | _, _, .isFalse h3 => .isFalse (by
          intro h
          injection h
          contradiction)
end

instance : DecidableEq JVal := deq

end JVal

/-! ### Python dict / list primitives -/

/-- `d.get(k)` on a dict modelled as an insertion-ordered association list:
the value at the first (and, for genuine Python dicts, only) occurrence. -/
def objGet (kvs : List (String × JVal)) (k : String) : Option JVal :=
  match kvs with
  | [] => none
  | (k', v) :: rest => if k' = k then some v else objGet rest k

/-- `d[k] = v`: replace the value at an existing key in place, else append. -/
def objSet (kvs : List (String × JVal)) (k : String) (v : JVal) :
    List (String × JVal) :=
  match kvs with
  | [] => [(k, v)]
  | (k', v') :: rest =>
      if k' = k then (k, v) :: rest else (k', v') :: objSet rest k v

/-- `k in d` (dict key membership). -/
def objHas (kvs : List (String × JVal)) (k : String) : Bool :=
  match objGet kvs k with
  | some _ => true
  | none => false

/-- The underlying dict of a value.  Every record handled by the engine is a
dict; calling dict methods on a non-dict raises `AttributeError` in CPython,
which is totalised here to the empty dict. -/
def asObj (v : JVal) : List (String × JVal) :=
  match v with
  | .obj kvs => kvs
  | _ => []

/-- `item.get(k, default)` with `item` a record. -/
def recGetD (item : JVal) (k : String) (d : JVal) : JVal :=
  match objGet (asObj item) k with
  | some v => v
  | none => d

/-- Python truthiness of a JSON value. -/
def pyTruthy (v : JVal) : Bool :=
  match v with
  | .null => false
  | .bool b => b
  | .num n => n != 0
  | .str s => s ≠ ""
  | .arr xs => xs ≠ []
  | .obj kvs => kvs ≠ []

/-- `x or []` followed by use as a list: the list if the value is a non-empty
list, `[]` for every falsy value.  (A truthy non-list would subsequently crash
CPython; totalised to `[]`.) -/
def pyListOr (v : JVal) : List JVal :=
  match v with
  | .arr xs => xs
  | _ => []

/-! ### Sort keys used by `_normalize_item` and for canonical serialization

Python's `sorted` compares `str` with `str` and numbers with numbers
(`bool` counting as `0`/`1`); any other pair of sort keys raises `TypeError`.
The embedding totalises the order into a lexicographic order on
`(class, int, string)`.  `None` is deliberately given the key of `""`, since
the deep `None → ""` coercion at the end of normalization must not disturb a
list that was sorted before the coercion.  All comparators are executable
`Bool` functions (a stable insertion sort over them is defined below and
related to Mathlib's `List.insertionSort` for the ordering lemmas). -/

/-- Code-point comparison of strings (Python string `<=`). -/
def charListLe : List Char → List Char → Bool
  | [], _ => true
  | _ :: _, [] => false
  | a :: as, b :: bs =>
      if a.toNat < b.toNat then true
      else if b.toNat < a.toNat then false
      else charListLe as bs

def strLe (a b : String) : Bool := charListLe a.data b.data

def keyLeB : Nat × Int × String → Nat × Int × String → Bool
  | (r1, i1, s1), (r2, i2, s2) =>
      if r1 < r2 then true
      else if r2 < r1 then false
      else if i1 < i2 then true
      else if i2 < i1 then false
      else strLe s1 s2

def jkey : JVal → Nat × Int × String
  | .null => (0, 0, "")
  | .str s => (0, 0, s)
  | .bool b => (1, if b then 1 else 0, "")
  | .num n => (1, n, "")
  | .arr _ => (2, 0, "")
  | .obj _ => (3, 0, "")

/-- Sort relation of rebuilt URI entries: key `(x["uri"], x.get("match", 0))`
compared lexicographically. -/
def uriLeB (u v : JVal) : Bool :=
  let ku := jkey (recGetD u "uri" .null)
  let kv := jkey (recGetD v "uri" .null)
  if ku = kv then
    keyLeB (jkey (recGetD u "match" (.num 0))) (jkey (recGetD v "match" (.num 0)))
  else keyLeB ku kv

/-- Sort relation of custom-field entries: key `f.get("name", "")`. -/
def fieldLeB (f g : JVal) : Bool :=
  keyLeB (jkey (recGetD f "name" (.str ""))) (jkey (recGetD g "name" (.str "")))

/-- Stable insertion into a sorted list (`List.orderedInsert` over a `Bool`
comparator). -/
def sortedInsert (le : α → α → Bool) (a : α) : List α → List α
  | [] => [a]
  | b :: l => if le a b then a :: b :: l else b :: sortedInsert le a l

/-- Stable insertion sort (Python's `sorted` up to stability; equal elements
keep their input order). -/
def sortBy (le : α → α → Bool) : List α → List α
  | [] => []
  | b :: l => sortedInsert le b (sortBy le l)

mutual
/-- Recursively sort all dict keys.  `json.dumps(x, sort_keys=True)` is
injective on unique-keyed trees up to this key ordering, so two values have
equal canonical dumps iff their `canon` images are equal; this is also Python
`==` on the values the engine compares. -/
def canon : JVal → JVal
  | .null => .null
  | .bool b => .bool b
  | .num n => .num n
  | .str s => .str s
  | .arr xs => .arr (canonArr xs)
  | .obj kvs => .obj (sortBy (fun a b => strLe a.1 b.1) (canonObj kvs))

def canonArr : List JVal → List JVal
  | [] => []
  | x :: xs => canon x :: canonArr xs

def canonObj : List (String × JVal) → List (String × JVal)
  | [] => []
  | (k, v) :: kvs => (k, canon v) :: canonObj kvs
end

/-- Python `==` between records (order-insensitive deep dict equality). -/
def pyEq (a b : JVal) : Bool := canon a = canon b

/-- `xs.remove(x)`: delete the first element comparing `==` to `x`; the Python
call sites guard with `if x in xs`, so a missing element leaves the list
unchanged. -/
def removeFirstEq (xs : List JVal) (x : JVal) : List JVal :=
  match xs with
  | [] => []
  | y :: ys => if pyEq y x then ys else y :: removeFirstEq ys x

/-! ### Python string primitives -/

/-- Characters removed by `str.strip()` with no argument. -/
def pySpace (c : Char) : Bool := c.isWhitespace

def stripChars (cs : List Char) : List Char :=
  ((cs.dropWhile pySpace).reverse.dropWhile pySpace).reverse

/-- `s.strip()`. -/
def pyStrip (s : String) : String := String.mk (stripChars s.data)

/-- `s.lower()` (modelled on the basic Latin range). -/
def pyLower (s : String) : String := String.mk (s.data.map Char.toLower)

/-- The ubiquitous `(x or "").strip().lower()` idiom: falsy values give `""`,
a string is stripped and lowercased.  (A truthy non-string would crash
CPython's `.strip()`; totalised to `""`.) -/
def stripLower (v : JVal) : String :=
  match v with
  | .str s => pyLower (pyStrip s)
  | _ => ""

/-! ### SHA-256 (`hashlib.sha256(...).hexdigest()`)

A faithful executable SHA-256 over byte lists, with 32-bit words as `Nat`
reduced mod `2 ^ 32`. -/

def w32 : Nat := 4294967296

def rotr32 (x n : Nat) : Nat := ((x >>> n) ||| (x <<< (32 - n))) % w32

def ssig0 (x : Nat) : Nat := rotr32 x 7 ^^^ rotr32 x 18 ^^^ (x >>> 3)

def ssig1 (x : Nat) : Nat := rotr32 x 17 ^^^ rotr32 x 19 ^^^ (x >>> 10)

def bsig0 (x : Nat) : Nat := rotr32 x 2 ^^^ rotr32 x 13 ^^^ rotr32 x 22

def bsig1 (x : Nat) : Nat := rotr32 x 6 ^^^ rotr32 x 11 ^^^ rotr32 x 25

def sha256K : List Nat :=
  [1116352408, 1899447441, 3049323471, 3921009573, 961987163, 1508970993,
   2453635748, 2870763221, 3624381080, 310598401, 607225278, 1426881987,
   1925078388, 2162078206, 2614888103, 3248222580, 3835390401, 4022224774,
   264347078, 604807628, 770255983, 1249150122, 1555081692, 1996064986,
   2554220882, 2821834349, 2952996808, 3210313671, 3336571891, 3584528711,
   113926993, 338241895, 666307205, 773529912, 1294757372, 1396182291,
   1695183700, 1986661051, 2177026350, 2456956037, 2730485921, 2820302411,
   3259730800, 3345764771, 3516065817, 3600352804, 4094571909, 275423344,
   430227734, 506948616, 659060556, 883997877, 958139571, 1322822218,
   1537002063, 1747873779, 1955562222, 2024104815, 2227730452, 2361852424,
   2428436474, 2756734187, 3204031479, 3329325298]

/-- One word of message-schedule extension, reading back from the already
computed prefix `w` of length `i ≥ 16`. -/
def schedWord (w : List Nat) (i : Nat) : Nat :=
  (ssig1 (w.getD (i - 2) 0) + w.getD (i - 7) 0 + ssig0 (w.getD (i - 15) 0) +
      w.getD (i - 16) 0) % w32

def extendSched : List Nat → Nat → List Nat
  | w, 0 => w
  | w, n + 1 => extendSched (w ++ [schedWord w w.length]) n

/-- The eight 32-bit working variables. -/
abbrev Sha8 := Nat × Nat × Nat × Nat × Nat × Nat × Nat × Nat

def sha256H0 : Sha8 :=
  (1779033703, 3144134277, 1013904242, 2773480762, 1359893119, 2600822924,
   528734635, 1541459225)

def compressRound (st : Sha8) (kw : Nat × Nat) : Sha8 :=
  let (a, b, c, d, e, f, g, h) := st
  let ch := (e &&& f) ^^^ ((e ^^^ 4294967295) &&& g)
  let maj := (a &&& b) ^^^ (a &&& c) ^^^ (b &&& c)
  let t1 := (h + bsig1 e + ch + kw.1 + kw.2) % w32
  let t2 := (bsig0 a + maj) % w32
  ((t1 + t2) % w32, a, b, c, (d + t1) % w32, e, f, g)

def addState (s t : Sha8) : Sha8 :=
  ((s.1 + t.1) % w32, (s.2.1 + t.2.1) % w32, (s.2.2.1 + t.2.2.1) % w32,
   (s.2.2.2.1 + t.2.2.2.1) % w32, (s.2.2.2.2.1 + t.2.2.2.2.1) % w32,
   (s.2.2.2.2.2.1 + t.2.2.2.2.2.1) % w32,
   (s.2.2.2.2.2.2.1 + t.2.2.2.2.2.2.1) % w32,
   (s.2.2.2.2.2.2.2 + t.2.2.2.2.2.2.2) % w32)

def compressBlock (st : Sha8) (blockWords : List Nat) : Sha8 :=
  let w := extendSched blockWords 48
  addState st ((sha256K.zip w).foldl compressRound st)

def toWordsBE : List Nat → List Nat
  | b0 :: b1 :: b2 :: b3 :: rest =>
      (b0 * 16777216 + b1 * 65536 + b2 * 256 + b3) :: toWordsBE rest
  | _ => []

def chunks64 : List Nat → List (List Nat)
  | [] => []
  | b :: rest => (b :: rest).take 64 :: chunks64 ((b :: rest).drop 64)
  termination_by bs => bs.length
  decreasing_by
    simp [List.length_drop]
    omega

def bytesBE : Nat → Nat → List Nat
  | 0, _ => []
  | n + 1, v => bytesBE n (v / 256) ++ [v % 256]

/-- SHA-256 padding: `0x80`, zeros, and the 64-bit big-endian bit length. -/
def padMsg (msg : List Nat) : List Nat :=
  let L := msg.length
  msg ++ [128] ++ List.replicate ((64 - (L + 9) % 64) % 64) 0 ++
    bytesBE 8 (8 * L)

def sha256Words (msg : List Nat) : List Nat :=
  let final := (chunks64 (padMsg msg)).foldl
    (fun st blk => compressBlock st (toWordsBE blk)) sha256H0
  [final.1, final.2.1, final.2.2.1, final.2.2.2.1, final.2.2.2.2.1,
   final.2.2.2.2.2.1, final.2.2.2.2.2.2.1, final.2.2.2.2.2.2.2]

def hexDigit (n : Nat) : Char :=
  if n = 0 then '0' else if n = 1 then '1' else if n = 2 then '2'
  else if n = 3 then '3' else if n = 4 then '4' else if n = 5 then '5'
  else if n = 6 then '6' else if n = 7 then '7' else if n = 8 then '8'
  else if n = 9 then '9' else if n = 10 then 'a' else if n = 11 then 'b'
  else if n = 12 then 'c' else if n = 13 then 'd' else if n = 14 then 'e'
  else 'f'

def wordHex (w : Nat) : List Char :=
  [hexDigit (w / 268435456 % 16), hexDigit (w / 16777216 % 16),
   hexDigit (w / 1048576 % 16), hexDigit (w / 65536 % 16),
   hexDigit (w / 4096 % 16), hexDigit (w / 256 % 16),
   hexDigit (w / 16 % 16), hexDigit (w % 16)]

def sha256hex (msg : List Nat) : String :=
  String.mk ((sha256Words msg).map wordHex).flatten

/-- UTF-8 encoding of one character (`str.encode("utf-8")`). -/
def charUtf8 (c : Char) : List Nat :=
  let n := c.toNat
  if n < 128 then [n]
  else if n < 2048 then [192 + n / 64, 128 + n % 64]
  else if n < 65536 then
    [224 + n / 4096, 128 + n / 64 % 64, 128 + n % 64]
  else [240 + n / 262144, 128 + n / 4096 % 64, 128 + n / 64 % 64, 128 + n % 64]

def utf8Bytes (s : String) : List Nat := (s.data.map charUtf8).flatten

/-! ### `bw_client.py`: custom-field accessors -/

/-- `f.get("name") == field_name` from the custom-field loops.  A non-dict
entry makes CPython raise in `get_custom_field`; totalised so that a
non-dict entry never matches (consistently in the getter and the setter). -/
def fieldNameIs (f : JVal) (fieldName : String) : Bool :=
  recGetD f "name" .null = .str fieldName

/-- The loop of `BitwardenClient.get_custom_field`: first matching field wins;
`f.get("value") or ""` collapses `None` (and every other falsy value) to
`""`.  Field values in the store are strings or `null`. -/
def getFieldValue : List JVal → String → String
  | [], _ => ""
  | f :: fs, n =>
      if fieldNameIs f n then
        match recGetD f "value" .null with
        | .str s => s
        | _ => ""
      else getFieldValue fs n

/-- `BitwardenClient.get_custom_field`. -/
def get_custom_field (item : JVal) (fieldName : String) : String :=
  getFieldValue (pyListOr (recGetD item "fields" .null)) fieldName

/-- The update loop of `set_custom_field`: set `f["value"]` on the first
matching field, reporting `none` when no field matched. -/
def setFieldValue : List JVal → String → String → Option (List JVal)
  | [], _, _ => none
  | f :: fs, n, v =>
      if fieldNameIs f n then some (.obj (objSet (asObj f) "value" (.str v)) :: fs)
      else
        match setFieldValue fs n v with
        | some fs' => some (f :: fs')
        | none => none

/-- `BitwardenClient.set_custom_field`: update the first matching field in
place, else append a fresh text field; either way `item["fields"]` is
(re)assigned. -/
def set_custom_field (item : JVal) (fieldName v : String) : JVal :=
  let fields := pyListOr (recGetD item "fields" .null)
  match setFieldValue fields fieldName v with
  | some fields' => .obj (objSet (asObj item) "fields" (.arr fields'))
  | none =>
      .obj (objSet (asObj item) "fields"
        (.arr (fields ++
          [.obj [("name", .str fieldName), ("value", .str v), ("type", .num 0)]])))

/-! ### `vault_sync.py`: constants, identity, fuzzy key -/

def SYNC_FIELD : String := "sync_id"

def IGNORED_FIELDS : List String :=
  ["id", "revisionDate", "creationDate", "deletedDate", "organizationId",
   SYNC_FIELD]

def VOLATILE_LOGIN_KEYS : List String := ["passwordRevisionDate", "totp"]

/-- `SyncPlanner.compute_sync_id`: deterministic hash of
name, username, and first-URI domain. -/
def compute_sync_id (item : JVal) : String :=
  let name := stripLower (recGetD item "name" .null)
  let login := recGetD item "login" (.obj [])
  let username := stripLower (recGetD login "username" .null)
  let uris := pyListOr (recGetD login "uris" .null)
  let domain :=
    match uris with
    | [] => ""
    | u :: _ =>
        let uri := stripLower (recGetD u "uri" (.str ""))
        (((uri.splitOn "//").getLastD "").splitOn "/").headD ""
  sha256hex (utf8Bytes (name ++ "|" ++ username ++ "|" ++ domain))

/-- `SyncPlanner.get_sync_id`. -/
def get_sync_id (item : JVal) : String := get_custom_field item SYNC_FIELD

/-- `SyncPlanner.set_sync_id`. -/
def set_sync_id (item : JVal) (sid : String) : JVal :=
  set_custom_field item SYNC_FIELD sid

/-- `SyncPlanner.build_key`: the fuzzy key `name + "|" + first URI`. -/
def build_key (item : JVal) : String :=
  let name := stripLower (recGetD item "name" .null)
  let uris := pyListOr (recGetD (recGetD item "login" (.obj [])) "uris" .null)
  let uri :=
    match uris with
    | [] => ""
    | u :: _ => stripLower (recGetD u "uri" (.str ""))
  name ++ "|" ++ uri

/-! ### `SyncPlanner._normalize_item` -/

mutual
/-- The closing `normalize_values` helper: recursively coerce every `None`
to `""`. -/
def normalizeValues : JVal → JVal
  | .null => .str ""
  | .bool b => .bool b
  | .num n => .num n
  | .str s => .str s
  | .arr xs => .arr (normalizeValuesArr xs)
  | .obj kvs => .obj (normalizeValuesObj kvs)

def normalizeValuesArr : List JVal → List JVal
  | [] => []
  | x :: xs => normalizeValues x :: normalizeValuesArr xs

def normalizeValuesObj : List (String × JVal) → List (String × JVal)
  | [] => []
  | (k, v) :: kvs => (k, normalizeValues v) :: normalizeValuesObj kvs
end

/-- Drop ignored top-level keys (`clean.pop(k)` over `IGNORED_FIELDS`; a
Python dict has unique keys, so popping each ignored key is a filter). -/
def dropIgnored (kvs : List (String × JVal)) : List (String × JVal) :=
  kvs.filter (fun kv => !(IGNORED_FIELDS.contains kv.1))

/-- Rebuild one URI entry:
uri trimmed-lowercased, `match` defaulted to `0`, `port` defaulted to `None`. -/
def normUri (u : JVal) : JVal :=
  .obj [("uri", .str (stripLower (recGetD u "uri" .null))),
        ("match", recGetD u "match" (.num 0)),
        ("port", recGetD u "port" .null)]

/-- The login block: drop volatile keys and, when `uris` is a list, rebuild
the dict entries (non-dicts are skipped) and sort by `(uri, match)`. -/
def normLoginStep (kvs : List (String × JVal)) : List (String × JVal) :=
  match objGet kvs "login" with
  | some (.obj lg) =>
      let lg1 := lg.filter (fun kv => !(VOLATILE_LOGIN_KEYS.contains kv.1))
      let lg2 :=
        match objGet lg1 "uris" with
        | some (.arr us) =>
            let nus := us.filterMap (fun u =>
              match u with
              | .obj _ => some (normUri u)
              | _ => none)
            objSet lg1 "uris" (.arr (sortBy uriLeB nus))
        | _ => lg1
      objSet kvs "login" (.obj lg2)
  | _ => kvs

/-- `f.get("name") != SYNC_FIELD` is false exactly when the name value is the
string `sync_id` (Python `==` across types is plain `False`). -/
def fieldNameIsSync (f : JVal) : Bool :=
  match recGetD f "name" .null with
  | .str s => s == SYNC_FIELD
  | _ => false

/-- `if "value" in f and f["value"] is None: f["value"] = ""`. -/
def coerceNullValue (f : JVal) : JVal :=
  match f with
  | .obj kvs =>
      if objGet kvs "value" = some .null then .obj (objSet kvs "value" (.str ""))
      else f
  | _ => f

/-- The custom-fields block: drop `sync_id` entries, coerce `None` values,
sort by field name. -/
def normFieldsStep (kvs : List (String × JVal)) : List (String × JVal) :=
  match objGet kvs "fields" with
  | some (.arr fs) =>
      let filtered := (fs.filter (fun f => !(fieldNameIsSync f))).map coerceNullValue
      objSet kvs "fields" (.arr (sortBy fieldLeB filtered))
  | _ => kvs

/-- `if clean.get("notes") is None: clean["notes"] = ""`. -/
def normNotesStep (kvs : List (String × JVal)) : List (String × JVal) :=
  match objGet kvs "notes" with
  | some .null => objSet kvs "notes" (.str "")
  | none => objSet kvs "notes" (.str "")
  | some _ => kvs

/-- `SyncPlanner._normalize_item` (on the deep copy; the caller's record is
untouched, see the frame theorems). -/
def normalize_item (item : JVal) : JVal :=
  .obj (normalizeValuesObj
    (normNotesStep (normFieldsStep (normLoginStep (dropIgnored (asObj item))))))

/-- `SyncPlanner._items_differ`: canonical serializations compared
byte-for-byte; for unique-keyed trees `json.dumps(x, sort_keys=True)` agree
exactly when the recursively key-sorted trees agree. -/
def items_differ (src dst : JVal) : Bool :=
  canon (normalize_item src) != canon (normalize_item dst)

/-! ### `SyncPlanner._match_unmatched` (fuzzy phase) -/

/-- The parallel `match_one` task: look the fuzzy key up in `dst_lookup`;
a truthy hit is an update candidate, anything else a create. -/
def matchOne (dst_lookup : List (String × JVal)) (s : JVal) : JVal × Option JVal :=
  match objGet dst_lookup (build_key s) with
  | some d => if pyTruthy d then (s, some d) else (s, none)
  | none => (s, none)

/-- The serial result loop of `_match_unmatched`: collect update pairs and
creates, and remove a claimed destination from the (caller's, mutated
in place) `dst_unmatched` list. -/
def fuzzyLoop :
    List (JVal × Option JVal) → List (JVal × JVal) → List JVal → List JVal →
      List (JVal × JVal) × List JVal × List JVal
  | [], ups, crs, du => (ups, crs, du)
  | (s, some d) :: rest, ups, crs, du =>
      fuzzyLoop rest (ups ++ [(s, d)]) crs (removeFirstEq du d)
  | (s, none) :: rest, ups, crs, du => fuzzyLoop rest ups (crs ++ [s]) du

/-- `SyncPlanner._match_unmatched`.  Returns
`(update_pairs, create_list, dst_unmatched-after-mutation)`; the worker pool
only permutes the order in which `match_one` results are consumed, modelled
here as submission order. -/
def match_unmatched (src_unmatched dst_unmatched : List JVal) :
    List (JVal × JVal) × List JVal × List JVal :=
  let dst_lookup := dst_unmatched.foldl (fun m d => objSet m (build_key d) d) []
  fuzzyLoop (src_unmatched.map (matchOne dst_lookup)) [] [] dst_unmatched

/-! ### `SyncPlanner.plan` -/

/-- `sid = self.get_sync_id(x) or self.compute_sync_id(x)`. -/
def assignSid (r : JVal) : String :=
  let g := get_sync_id r
  if g ≠ "" then g else compute_sync_id r

/-- The first loop of `plan()`: assign the sync id, attach it to the source
record in place, then bucket by truthiness of the id. -/
def srcLoop :
    List JVal → List (String × JVal) → List JVal →
      List (String × JVal) × List JVal
  | [], m, u => (m, u)
  | s :: rest, m, u =>
      let sid := assignSid s
      let s1 := set_sync_id s sid
      if sid ≠ "" then srcLoop rest (objSet m sid s1) u
      else srcLoop rest m (u ++ [s1])

def srcPhase (items : List JVal) : List (String × JVal) × List JVal :=
  srcLoop items [] []

/-- The second loop of `plan()`: destination records get a sync id computed
for bucketing but are not written to. -/
def dstLoop :
    List JVal → List (String × JVal) → List JVal →
      List (String × JVal) × List JVal
  | [], m, u => (m, u)
  | d :: rest, m, u =>
      let sid := assignSid d
      if sid ≠ "" then dstLoop rest (objSet m sid d) u
      else dstLoop rest m (u ++ [d])

def dstPhase (items : List JVal) : List (String × JVal) × List JVal :=
  dstLoop items [] []

/-- Exact phase: iterate `src_map`, a truthy hit in `dst_map` is a matched
pair, otherwise a create candidate. -/
def exactMatch :
    List (String × JVal) → List (String × JVal) →
      List (JVal × JVal) × List JVal
  | [], _ => ([], [])
  | (sid, src) :: rest, dst_map =>
      let (mp, tc) := exactMatch rest dst_map
      match objGet dst_map sid with
      | some d => if pyTruthy d then ((src, d) :: mp, tc) else (mp, src :: tc)
      | none => (mp, src :: tc)

/-- The parallel compare phases: keep the pairs whose items differ
(`as_completed` only permutes the order; modelled as submission order). -/
def compareFilter (ps : List (JVal × JVal)) : List (JVal × JVal) :=
  ps.filter (fun p => items_differ p.1 p.2)

/-- Deletions: destination entries whose sync id is not a `src_map` key. -/
def findDeletes :
    List (String × JVal) → List (String × JVal) → List JVal
  | [], _ => []
  | (sid, d) :: rest, src_map =>
      if objHas src_map sid then findDeletes rest src_map
      else d :: findDeletes rest src_map

/-- `SyncPlanner.plan`, with the two fetches already performed:
returns `(to_create, to_update, to_delete)`. -/
def plan (src_items dst_items : List JVal) :
    List JVal × List (JVal × JVal) × List JVal :=
  let sp := srcPhase src_items
  let dp := dstPhase dst_items
  let em := exactMatch sp.1 dp.1
  let to_update1 := compareFilter em.1
  let to_delete1 := findDeletes dp.1 sp.1
  let fz := match_unmatched sp.2 dp.2
  (em.2 ++ fz.2.1,
   to_update1 ++ compareFilter fz.1,
   to_delete1 ++ fz.2.2)

/-- All matched pairs of one `plan()` run (exact phase then fuzzy phase),
before the difference filter; a pair that does not differ is
"matched and unchanged". -/
def planMatchedPairs (src_items dst_items : List JVal) : List (JVal × JVal) :=
  (exactMatch (srcPhase src_items).1 (dstPhase dst_items).1).1 ++
    (match_unmatched (srcPhase src_items).2 (dstPhase dst_items).2).1

/-! ### `plan()` with failure: fetches and comparison tasks may raise.

`list_items()` raising aborts before any matching; a comparison task's
exception is re-raised by `future.result()` and there is no `try`/`except`
anywhere in `plan`, so it propagates to the caller. -/

def compareFilterE {ε : Type} (cmp : JVal → JVal → Except ε Bool) :
    List (JVal × JVal) → Except ε (List (JVal × JVal))
  | [] => .ok []
  | p :: ps =>
      match cmp p.1 p.2 with
      | .error e => .error e
      | .ok d =>
          match compareFilterE cmp ps with
          | .error e => .error e
          | .ok rest => .ok (if d then p :: rest else rest)

def planE {ε : Type} (fetchSrc fetchDst : Except ε (List JVal))
    (cmp : JVal → JVal → Except ε Bool) :
    Except ε (List JVal × List (JVal × JVal) × List JVal) :=
  match fetchSrc with
  | .error e => .error e
  | .ok src_items =>
      match fetchDst with
      | .error e => .error e
      | .ok dst_items =>
          let sp := srcPhase src_items
          let dp := dstPhase dst_items
          let em := exactMatch sp.1 dp.1
          match compareFilterE cmp em.1 with
          | .error e => .error e
          | .ok to_update1 =>
              let to_delete1 := findDeletes dp.1 sp.1
              let fz := match_unmatched sp.2 dp.2
              match compareFilterE cmp fz.1 with
              | .error e => .error e
              | .ok to_update2 =>
                  .ok (em.2 ++ fz.2.1, to_update1 ++ to_update2,
                    to_delete1 ++ fz.2.2)

/-! ### A state-passing view of the normalizer (for the frame property)

`_normalize_item` receives the caller's record, makes `clean = copy.deepcopy(item)`
(line 64) and every statement after that line mutates only `clean` or
sub-structures reachable from `clean` — which, being a deep copy, shares no
structure with `item`.  `normalizeItemMut` returns the pair
(caller's record after the call, result); `deepcopyJ` is the structural copy
`copy.deepcopy` produces. -/

mutual
def deepcopyJ : JVal → JVal
  | .null => .null
  | .bool b => .bool b
  | .num n => .num n
  | .str s => .str s
  | .arr xs => .arr (deepcopyArr xs)
  | .obj kvs => .obj (deepcopyObj kvs)

def deepcopyArr : List JVal → List JVal
  | [] => []
  | x :: xs => deepcopyJ x :: deepcopyArr xs

def deepcopyObj : List (String × JVal) → List (String × JVal)
  | [] => []
  | (k, v) :: kvs => (k, deepcopyJ v) :: deepcopyObj kvs
end

/-- `_normalize_item` with the caller's object made explicit. -/
def normalizeItemMut (item : JVal) : JVal × JVal :=
  let clean := deepcopyJ item
  (item,
   .obj (normalizeValuesObj
     (normNotesStep (normFieldsStep (normLoginStep (dropIgnored (asObj clean)))))))

/-- `_items_differ` with both callers' objects made explicit. -/
def itemsDifferMut (src dst : JVal) : (JVal × JVal) × Bool :=
  ((src, dst),
   canon (normalizeItemMut src).2 != canon (normalizeItemMut dst).2)

/-! ### Record similarity up to ignored data (for the hyperproperty claims) -/

/-- The store-managed metadata keys. -/
def metaKeys : List String :=
  ["id", "revisionDate", "creationDate", "deletedDate", "organizationId"]

/-- Erase the store-managed metadata keys of a record. -/
def eraseMeta (r : JVal) : List (String × JVal) :=
  (asObj r).filter (fun kv => !(metaKeys.contains kv.1))

/-- Drop the `sync_id`-named entries of a custom-field list. -/
def dropSyncEntries : JVal → JVal
  | .arr fs => .arr (fs.filter (fun f => !(fieldNameIsSync f)))
  | v => v

/-- The scrub map applied to one record entry: `fields` values lose their
`sync_id` entries, everything else is untouched. -/
def scrubEntry (kv : String × JVal) : String × JVal :=
  if kv.1 = "fields" then (kv.1, dropSyncEntries kv.2) else kv

/-- A record up to store metadata and the `sync_id` custom field: metadata
keys erased, `sync_id` entries dropped inside the `fields` list.  Two records
with equal `scrubbed` views differ only in store metadata and in the value or
(list-internal) presence of the `sync_id` custom field. -/
def scrubbed (r : JVal) : List (String × JVal) :=
  (eraseMeta r).map scrubEntry

/-- Matching entries of the source and destination sync-id maps: same key,
contents that do not differ after normalization, truthy destination. -/
def pairQ (a b : String × JVal) : Prop :=
  a.1 = b.1 ∧ items_differ a.2 b.2 = false ∧ pyTruthy b.2 = true

/-! ### Association-list lemmas -/


/-! ### Concrete records and bucket predicates used by the claim
theorems and their witnesses -/

/-- A record whose only `sync_id` custom field holds a null value. -/
def nullSyncRec : JVal :=
  .obj [("name", .str "a"),
        ("fields", .arr [.obj [("name", .str SYNC_FIELD), ("value", .null),
          ("type", .num 0)]])]

/-- A source record already carrying a `sync_id` field with value `k`. -/
def syncedRec : JVal :=
  .obj [("name", .str "a"),
        ("fields", .arr [.obj [("name", .str SYNC_FIELD), ("value", .str "k"),
          ("type", .num 0)]])]

/-- A destination record carrying the same pre-existing sync id `k` as
`syncedRec`, with different content. -/
def syncedDstRec : JVal :=
  .obj [("name", .str "b"),
        ("fields", .arr [.obj [("name", .str SYNC_FIELD), ("value", .str "k"),
          ("type", .num 0)]])]

/-- One mirrored pair: same content and sync id `k`, different store ids. -/
def mirrorSrcRec : JVal :=
  .obj [("id", .str "1"), ("name", .str "a"),
        ("fields", .arr [.obj [("name", .str SYNC_FIELD), ("value", .str "k"),
          ("type", .num 0)]])]

def mirrorDstRec : JVal :=
  .obj [("id", .str "2"), ("name", .str "a"),
        ("fields", .arr [.obj [("name", .str SYNC_FIELD), ("value", .str "k"),
          ("type", .num 0)]])]

/-- A record holding nothing but the `sync_id` custom field. -/
def onlySyncRec : JVal :=
  .obj [("fields", .arr [.obj [("name", .str SYNC_FIELD), ("value", .str "x"),
    ("type", .num 0)]])]

def scrubA : JVal :=
  .obj [("id", .str "1"), ("name", .str "n"),
        ("fields", .arr [.obj [("name", .str SYNC_FIELD), ("value", .str "x"),
          ("type", .num 0)],
          .obj [("name", .str "env"), ("value", .str "p"), ("type", .num 0)]])]

def scrubA' : JVal :=
  .obj [("name", .str "n"),
        ("fields", .arr [.obj [("name", .str "env"), ("value", .str "p"),
          ("type", .num 0)],
          .obj [("name", .str SYNC_FIELD), ("value", .str "y"),
          ("type", .num 0)]])]

def exactlyOne (a b c : Prop) : Prop :=
  (a ∧ ¬b ∧ ¬c) ∨ (¬a ∧ b ∧ ¬c) ∨ (¬a ∧ ¬b ∧ c)

/-- The record is one half of a matched pair that compares equal
("matched and unchanged"). -/
def inMatchedUnchangedSrc (src_items dst_items : List JVal) (x : JVal) : Prop :=
  ∃ d, (x, d) ∈ planMatchedPairs src_items dst_items ∧
    items_differ x d = false

def inUpdateSrc (src_items dst_items : List JVal) (x : JVal) : Prop :=
  ∃ d, (x, d) ∈ (plan src_items dst_items).2.1

def inCreateSrc (src_items dst_items : List JVal) (x : JVal) : Prop :=
  x ∈ (plan src_items dst_items).1

def inMatchedUnchangedDst (src_items dst_items : List JVal) (d : JVal) : Prop :=
  ∃ x, (x, d) ∈ planMatchedPairs src_items dst_items ∧
    items_differ x d = false

def inUpdateDst (src_items dst_items : List JVal) (d : JVal) : Prop :=
  ∃ x, (x, d) ∈ (plan src_items dst_items).2.1

def inDeleteDst (src_items dst_items : List JVal) (d : JVal) : Prop :=
  d ∈ (plan src_items dst_items).2.2

/-- Two source records with the same pre-existing sync id `k` but different
content: the second overwrites the first in `src_map`. -/
def c1srcA : JVal :=
  .obj [("name", .str "a"),
        ("fields",
         .arr [.obj [("name", .str SYNC_FIELD), ("value", .str "k")]])]

def c1srcB : JVal :=
  .obj [("name", .str "a"), ("notes", .str "b"),
        ("fields",
         .arr [.obj [("name", .str SYNC_FIELD), ("value", .str "k")]])]

/-- Witness batch: one source with sync id `k`, one destination with sync id
`j`; the fingerprints are unique on each side and the destination record is
truthy. -/
def c1wSrc : JVal :=
  .obj [("name", .str "a"),
        ("fields",
         .arr [.obj [("name", .str SYNC_FIELD), ("value", .str "k")]])]

def c1wDst : JVal :=
  .obj [("name", .str "b"),
        ("fields",
         .arr [.obj [("name", .str SYNC_FIELD), ("value", .str "j")]])]
theorem objGet_objSet_self (kvs : List (String × JVal)) (k : String) (v : JVal) :
    objGet (objSet kvs k v) k = some v := by
  induction kvs with
  | nil => simp [objSet, objGet]
  | cons kv rest ih =>
      obtain ⟨k', v'⟩ := kv
      by_cases h : k' = k
      · simp [objSet, objGet, h]
      · simp [objSet, objGet, h, ih]

theorem objGet_objSet_ne (kvs : List (String × JVal)) {k k' : String} (v : JVal)
    (h : k' ≠ k) : objGet (objSet kvs k v) k' = objGet kvs k' := by
  induction kvs with
  | nil => simp [objSet, objGet, Ne.symm h]
  | cons kv rest ih =>
      obtain ⟨k₀, v₀⟩ := kv
      by_cases h₀ : k₀ = k
      · subst h₀
        simp [objSet, objGet, Ne.symm h]
      · simp only [objSet, if_neg h₀, objGet]
        by_cases h₁ : k₀ = k'
        · simp [h₁]
        · simp [h₁, ih]

theorem objSet_objGet_self {kvs : List (String × JVal)} {k : String} {v : JVal}
    (h : objGet kvs k = some v) : objSet kvs k v = kvs := by
  induction kvs with
  | nil => simp [objGet] at h
  | cons kv rest ih =>
      obtain ⟨k₀, v₀⟩ := kv
      by_cases h₀ : k₀ = k
      · subst h₀
        simp [objGet] at h
        simp [objSet, h]
      · simp [objGet, h₀] at h
        simp [objSet, h₀, ih h]

theorem objSet_objSet (kvs : List (String × JVal)) (k : String) (v w : JVal) :
    objSet (objSet kvs k v) k w = objSet kvs k w := by
  induction kvs with
  | nil => simp [objSet]
  | cons kv rest ih =>
      obtain ⟨k₀, v₀⟩ := kv
      by_cases h₀ : k₀ = k
      · simp [objSet, h₀]
      · simp [objSet, h₀, ih]

theorem objGet_eq_none (kvs : List (String × JVal)) (k : String) :
    objGet kvs k = none ↔ k ∉ kvs.map Prod.fst := by
  induction kvs with
  | nil => simp [objGet]
  | cons kv rest ih =>
      obtain ⟨k₀, v₀⟩ := kv
      by_cases h₀ : k₀ = k
      · simp [objGet, h₀]
      · simp [objGet, h₀, ih, Ne.symm h₀]

theorem objHas_iff (kvs : List (String × JVal)) (k : String) :
    objHas kvs k = true ↔ k ∈ kvs.map Prod.fst := by
  unfold objHas
  rcases h : objGet kvs k with _ | v
  · simp [(objGet_eq_none kvs k).mp h]
  · simp only [true_iff]
    by_contra hmem
    rw [(objGet_eq_none kvs k).mpr hmem] at h
    exact Option.noConfusion h

theorem objGet_mem {kvs : List (String × JVal)} {k : String} {v : JVal}
    (h : objGet kvs k = some v) : (k, v) ∈ kvs := by
  induction kvs with
  | nil => simp [objGet] at h
  | cons kv rest ih =>
      obtain ⟨k₀, v₀⟩ := kv
      by_cases h₀ : k₀ = k
      · subst h₀
        simp [objGet] at h
        simp [h]
      · simp [objGet, h₀] at h
        simp [ih h]

theorem keys_objSet_of_has {kvs : List (String × JVal)} {k : String}
    (h : k ∈ kvs.map Prod.fst) (v : JVal) :
    (objSet kvs k v).map Prod.fst = kvs.map Prod.fst := by
  induction kvs with
  | nil => simp at h
  | cons kv rest ih =>
      obtain ⟨k₀, v₀⟩ := kv
      by_cases h₀ : k₀ = k
      · simp [objSet, h₀]
      · rw [List.map_cons, List.mem_cons] at h
        rcases h with h | h
        · exact absurd h.symm h₀
        · simp [objSet, h₀, ih h]

theorem keys_objSet_sub (kvs : List (String × JVal)) (k : String) (v : JVal) :
    ∀ k' ∈ (objSet kvs k v).map Prod.fst, k' ∈ kvs.map Prod.fst ∨ k' = k := by
  induction kvs with
  | nil => simp [objSet]
  | cons kv rest ih =>
      obtain ⟨k₀, v₀⟩ := kv
      intro k' h'
      by_cases h₀ : k₀ = k
      · subst h₀
        simp [objSet] at h'
        simp
        tauto
      · simp [objSet, h₀] at h'
        simp
        rcases h' with h' | h'
        · tauto
        · have := ih k' (by simpa using h')
          simp at this
          tauto

/-- Values present in an updated map come from the old map or are the new
value. -/
theorem mem_vals_objSet {kvs : List (String × JVal)} {k : String} {v : JVal}
    {p : String × JVal} (h : p ∈ objSet kvs k v) :
    p ∈ kvs ∨ p = (k, v) := by
  induction kvs with
  | nil => simp [objSet] at h; right; exact h
  | cons kv rest ih =>
      obtain ⟨k₀, v₀⟩ := kv
      by_cases h₀ : k₀ = k
      · simp [objSet, h₀] at h
        rcases h with h | h
        · right; simp [h]
        · left; simp [h]
      · simp only [objSet, if_neg h₀, List.mem_cons] at h
        rcases h with h | h
        · left; simp [h]
        · rcases ih h with h' | h'
          · left; simp [h']
          · right; exact h'

/-! ### `normalizeValues` lemmas -/

theorem normalizeValues_ne_null (v : JVal) : normalizeValues v ≠ .null := by
  cases v <;> simp [normalizeValues]

mutual
theorem normalizeValues_idem (v : JVal) :
    normalizeValues (normalizeValues v) = normalizeValues v := by
  cases v with
  | null => rfl
  | bool b => rfl
  | num n => rfl
  | str s => rfl
  | arr xs => simp [normalizeValues, normalizeValuesArr_idem xs]
  | obj kvs => simp [normalizeValues, normalizeValuesObj_idem kvs]

theorem normalizeValuesArr_idem (xs : List JVal) :
    normalizeValuesArr (normalizeValuesArr xs) = normalizeValuesArr xs := by
  cases xs with
  | nil => rfl
  | cons x rest =>
      simp [normalizeValuesArr, normalizeValues_idem x, normalizeValuesArr_idem rest]

theorem normalizeValuesObj_idem (kvs : List (String × JVal)) :
    normalizeValuesObj (normalizeValuesObj kvs) = normalizeValuesObj kvs := by
  cases kvs with
  | nil => rfl
  | cons kv rest =>
      obtain ⟨k, v⟩ := kv
      simp [normalizeValuesObj, normalizeValues_idem v, normalizeValuesObj_idem rest]
end

theorem normalizeValuesArr_eq_map (xs : List JVal) :
    normalizeValuesArr xs = xs.map normalizeValues := by
  induction xs with
  | nil => rfl
  | cons x rest ih => simp [normalizeValuesArr, ih]

theorem keys_normalizeValuesObj (kvs : List (String × JVal)) :
    (normalizeValuesObj kvs).map Prod.fst = kvs.map Prod.fst := by
  induction kvs with
  | nil => rfl
  | cons kv rest ih =>
      obtain ⟨k, v⟩ := kv
      simp [normalizeValuesObj, ih]

theorem objGet_normalizeValuesObj (kvs : List (String × JVal)) (k : String) :
    objGet (normalizeValuesObj kvs) k = (objGet kvs k).map normalizeValues := by
  induction kvs with
  | nil => simp [normalizeValuesObj, objGet]
  | cons kv rest ih =>
      obtain ⟨k₀, v₀⟩ := kv
      by_cases h₀ : k₀ = k
      · simp [normalizeValuesObj, objGet, h₀]
      · simp [normalizeValuesObj, objGet, h₀, ih]

theorem jkey_normalizeValues (v : JVal) : jkey (normalizeValues v) = jkey v := by
  cases v <;> simp [normalizeValues, jkey]

/-! ### String lemmas: `strip` / `lower` are idempotent and commute -/

theorem char_toNat_inj {c d : Char} (h : c.toNat = d.toNat) : c = d := by
  apply Char.ext
  exact UInt32.toNat.inj h

theorem toNat_ofNat_valid (n : Nat) (h : n.isValidChar) :
    (Char.ofNat n).toNat = n := by
  rw [Char.ofNat, dif_pos h]
  rfl

theorem isWhitespace_iff (c : Char) :
    c.isWhitespace = true ↔
      c.toNat = 32 ∨ c.toNat = 9 ∨ c.toNat = 13 ∨ c.toNat = 10 := by
  unfold Char.isWhitespace
  simp only [Bool.or_eq_true, decide_eq_true_eq]
  constructor
  · rintro (((h | h) | h) | h) <;> first
      | (left; rw [h]; rfl)
      | (right; left; rw [h]; rfl)
      | (right; right; left; rw [h]; rfl)
      | (right; right; right; rw [h]; rfl)
  · rintro (h | h | h | h)
    · left; left; left; exact char_toNat_inj (by rw [h]; rfl)
    · left; left; right; exact char_toNat_inj (by rw [h]; rfl)
    · left; right; exact char_toNat_inj (by rw [h]; rfl)
    · right; exact char_toNat_inj (by rw [h]; rfl)

theorem charToLower_idem (c : Char) : c.toLower.toLower = c.toLower := by
  unfold Char.toLower
  by_cases h : c.toNat ≥ 65 ∧ c.toNat ≤ 90
  · rw [if_pos h]
    have hv : (c.toNat + 32).isValidChar := by
      constructor
      omega
    rw [toNat_ofNat_valid _ hv, if_neg (by omega)]
  · rw [if_neg h, if_neg h]

theorem charToLower_ws (c : Char) :
    (Char.toLower c).isWhitespace = c.isWhitespace := by
  unfold Char.toLower
  by_cases h : c.toNat ≥ 65 ∧ c.toNat ≤ 90
  · rw [if_pos h]
    have hv : (c.toNat + 32).isValidChar := by constructor; omega
    have h1 : (Char.ofNat (c.toNat + 32)).isWhitespace = false := by
      rw [← Bool.not_eq_true, isWhitespace_iff, toNat_ofNat_valid _ hv]
      omega
    have h2 : c.isWhitespace = false := by
      rw [← Bool.not_eq_true, isWhitespace_iff]
      omega
    rw [h1, h2]
  · rw [if_neg h]

theorem pySpace_toLower (c : Char) : pySpace (Char.toLower c) = pySpace c := by
  unfold pySpace
  exact charToLower_ws c

theorem pyLower_idem (s : String) : pyLower (pyLower s) = pyLower s := by
  unfold pyLower
  simp only [List.map_map]
  congr 1
  exact List.map_congr_left (fun c _ => charToLower_idem c)

/-- `stripChars` is `rdropWhile` after `dropWhile`. -/
theorem stripChars_eq (cs : List Char) :
    stripChars cs = List.rdropWhile pySpace (cs.dropWhile pySpace) := by
  rfl

theorem rdropWhile_append_self (p : α → Bool) (m : List α) :
    ∃ s, m = List.rdropWhile p m ++ s := by
  obtain ⟨t, ht⟩ := List.dropWhile_suffix (l := m.reverse) p
  refine ⟨t.reverse, ?_⟩
  rw [List.rdropWhile, ← List.reverse_append, ht, List.reverse_reverse]

theorem stripChars_idem (cs : List Char) :
    stripChars (stripChars cs) = stripChars cs := by
  rw [stripChars_eq, stripChars_eq]
  have hdrop : (List.rdropWhile pySpace
      (cs.dropWhile pySpace)).dropWhile pySpace =
      List.rdropWhile pySpace (cs.dropWhile pySpace) := by
    rcases hr : List.rdropWhile pySpace (cs.dropWhile pySpace) with _ | ⟨a, t⟩
    · simp
    · obtain ⟨s, hs⟩ := rdropWhile_append_self pySpace (cs.dropWhile pySpace)
      rw [hr] at hs
      have hlen : 0 < (cs.dropWhile pySpace).length := by
        rw [hs]
        simp
      have hnot := List.dropWhile_get_zero_not (p := pySpace) cs hlen
      have hget : (cs.dropWhile pySpace).get ⟨0, hlen⟩ = a := by
        have h0 := List.get_of_eq hs ⟨0, hlen⟩
        simpa using h0
      rw [hget] at hnot
      simp only [List.dropWhile_cons, hnot]
      simp at hnot
      simp [hnot]
  rw [hdrop, List.rdropWhile_idempotent]

theorem stripChars_map_toLower (cs : List Char) :
    stripChars (cs.map Char.toLower) = (stripChars cs).map Char.toLower := by
  unfold stripChars
  have hcomp : ∀ l : List Char,
      (l.map Char.toLower).dropWhile pySpace =
        (l.dropWhile pySpace).map Char.toLower := by
    intro l
    rw [List.dropWhile_map]
    have hp : pySpace ∘ Char.toLower = pySpace :=
      funext fun c => pySpace_toLower c
    rw [hp]
  rw [hcomp, ← List.map_reverse, hcomp, List.map_reverse]

theorem pyStrip_pyLower (s : String) :
    pyStrip (pyLower s) = pyLower (pyStrip s) := by
  unfold pyStrip pyLower
  simp only
  rw [stripChars_map_toLower]

theorem pyStrip_idem (s : String) : pyStrip (pyStrip s) = pyStrip s := by
  unfold pyStrip
  simp only
  rw [stripChars_idem]

/-- One `strip().lower()` pass is a fixed point of a second pass. -/
theorem stripLower_fix (s : String) :
    pyLower (pyStrip (pyLower (pyStrip s))) = pyLower (pyStrip s) := by
  rw [pyStrip_pyLower, pyStrip_idem, pyLower_idem]

theorem stripLower_stripLower (v : JVal) :
    stripLower (.str (stripLower v)) = stripLower v := by
  cases v with
  | str s => exact stripLower_fix s
  | null => rfl
  | bool b => rfl
  | num n => rfl
  | arr xs => rfl
  | obj kvs => rfl

/-! ### The fingerprint is never empty -/

theorem length_wordHex (w : Nat) : (wordHex w).length = 8 := rfl

theorem length_sha256Words (msg : List Nat) : (sha256Words msg).length = 8 := rfl

theorem sha256hex_ne_empty (msg : List Nat) : sha256hex msg ≠ "" := by
  unfold sha256hex
  intro h
  have hdata : (((sha256Words msg).map wordHex).flatten : List Char) = [] := by
    have := congrArg String.data h
    exact this
  have hlen := congrArg List.length hdata
  rw [List.length_flatten] at hlen
  have hmap : ((sha256Words msg).map wordHex).map List.length =
      (sha256Words msg).map (fun w => (wordHex w).length) := by
    rw [List.map_map]
    rfl
  rw [hmap] at hlen
  have h8 : (sha256Words msg).map (fun w => (wordHex w).length) =
      (sha256Words msg).map (fun _ => 8) :=
    List.map_congr_left (fun w _ => length_wordHex w)
  rw [h8, List.map_const', length_sha256Words] at hlen
  simp [List.sum_replicate] at hlen

/-- `compute_sync_id` always yields a (64-character) non-empty digest, even
for a record with empty name, username, and URIs. -/
theorem compute_sync_id_ne_empty (item : JVal) : compute_sync_id item ≠ "" := by
  unfold compute_sync_id
  exact sha256hex_ne_empty _

/-- In `plan()`, `sid = get_sync_id(x) or compute_sync_id(x)` is never
empty. -/
theorem assignSid_ne_empty (r : JVal) : assignSid r ≠ "" := by
  unfold assignSid
  by_cases h : get_sync_id r ≠ ""
  · rw [if_pos h]
    exact h
  · rw [if_neg h]
    exact compute_sync_id_ne_empty r

/-! ### More association-list lemmas -/

theorem objGet_filter {p : String × JVal → Bool} {k : String}
    (hk : ∀ w, p (k, w) = true) (kvs : List (String × JVal)) :
    objGet (kvs.filter p) k = objGet kvs k := by
  induction kvs with
  | nil => simp [objGet]
  | cons kv rest ih =>
      obtain ⟨k₀, v₀⟩ := kv
      by_cases h₀ : k₀ = k
      · subst h₀
        simp [List.filter_cons, hk v₀, objGet]
      · rcases hp : p (k₀, v₀) with _ | _
        · simp [List.filter_cons, hp, objGet, h₀, ih]
        · simp [List.filter_cons, hp, objGet, h₀, ih]

theorem filter_objSet {p : String × JVal → Bool} {k : String}
    (hk : ∀ w, p (k, w) = true) (kvs : List (String × JVal)) (v : JVal) :
    (objSet kvs k v).filter p = objSet (kvs.filter p) k v := by
  induction kvs with
  | nil => simp [objSet, List.filter_cons, hk v]
  | cons kv rest ih =>
      obtain ⟨k₀, v₀⟩ := kv
      by_cases h₀ : k₀ = k
      · subst h₀
        simp [objSet, List.filter_cons, hk v, hk v₀]
      · rcases hp : p (k₀, v₀) with _ | _
        · simp [objSet, h₀, List.filter_cons, hp, ih]
        · simp [objSet, h₀, List.filter_cons, hp, ih]

theorem objSet_comm {k k' : String} (h : k ≠ k') (m : List (String × JVal))
    (hk : k ∈ m.map Prod.fst) (v w : JVal) :
    objSet (objSet m k v) k' w = objSet (objSet m k' w) k v := by
  induction m with
  | nil => simp at hk
  | cons kv rest ih =>
      obtain ⟨k₀, v₀⟩ := kv
      by_cases h₀ : k₀ = k
      · subst h₀
        simp [objSet, h, Ne.symm h]
      · have hk' : k ∈ rest.map Prod.fst := by
          rw [List.map_cons, List.mem_cons] at hk
          rcases hk with hk | hk
          · exact absurd hk.symm h₀
          · exact hk
        by_cases h₁ : k₀ = k'
        · subst h₁
          simp [objSet, h₀, Ne.symm h]
        · simp [objSet, h₀, h₁, ih hk']

/-! ### Custom-field lemmas -/

theorem fieldNameIs_sync (f : JVal) :
    fieldNameIs f SYNC_FIELD = fieldNameIsSync f := by
  unfold fieldNameIs fieldNameIsSync
  rcases recGetD f "name" .null with _ | b | n | s | xs | kvs
  · simp
  · simp
  · simp
  · by_cases h : s = SYNC_FIELD <;> simp [h]
  · simp
  · simp

/-- Setting `value` on a field entry does not change its name. -/
theorem fieldNameIs_objSet_value (kvs : List (String × JVal)) (x : JVal)
    (n : String) :
    fieldNameIs (.obj (objSet kvs "value" x)) n = fieldNameIs (.obj kvs) n := by
  unfold fieldNameIs recGetD
  simp only [asObj,
    objGet_objSet_ne kvs x (show ("name" : String) ≠ "value" by decide)]

/-- The in-place sync-field update leaves the non-sync entries of the field
list untouched. -/
theorem filter_setFieldValue {fs fs2 : List JVal} {v : String}
    (h : setFieldValue fs SYNC_FIELD v = some fs2) :
    fs2.filter (fun f => !(fieldNameIsSync f)) =
      fs.filter (fun f => !(fieldNameIsSync f)) := by
  induction fs generalizing fs2 with
  | nil => simp [setFieldValue] at h
  | cons f rest ih =>
      by_cases hf : fieldNameIs f SYNC_FIELD
      · rw [setFieldValue, if_pos hf] at h
        obtain rfl := Option.some.inj h
        rw [List.filter_cons, List.filter_cons]
        have hsync : fieldNameIsSync f = true := by
          rw [← fieldNameIs_sync]; exact hf
        have hsync2 : fieldNameIsSync (.obj (objSet (asObj f) "value" (.str v))) = true := by
          rw [← fieldNameIs_sync]
          cases f with
          | obj kvs => rw [fieldNameIs_objSet_value, ← fieldNameIs_sync] at *; exact hsync
          | null =>
              rw [← fieldNameIs_sync] at hsync
              simp [fieldNameIs, recGetD, asObj, objGet] at hsync
          | bool b =>
              rw [← fieldNameIs_sync] at hsync
              simp [fieldNameIs, recGetD, asObj, objGet] at hsync
          | num n =>
              rw [← fieldNameIs_sync] at hsync
              simp [fieldNameIs, recGetD, asObj, objGet] at hsync
          | str s =>
              rw [← fieldNameIs_sync] at hsync
              simp [fieldNameIs, recGetD, asObj, objGet] at hsync
          | arr xs =>
              rw [← fieldNameIs_sync] at hsync
              simp [fieldNameIs, recGetD, asObj, objGet] at hsync
        rw [hsync, hsync2]
        simp
      · rw [setFieldValue, if_neg hf] at h
        rcases hrec : setFieldValue rest SYNC_FIELD v with _ | fs3
        · rw [hrec] at h
          exact absurd h (by simp)
        · rw [hrec] at h
          obtain rfl := Option.some.inj h
          rw [List.filter_cons, List.filter_cons, ih hrec]

/-- A sync-named appended entry is dropped by the non-sync filter. -/
theorem filter_append_sync (fs : List JVal) (v : String) :
    (fs ++ [JVal.obj [("name", .str SYNC_FIELD), ("value", .str v),
      ("type", .num 0)]]).filter (fun f => !(fieldNameIsSync f)) =
      fs.filter (fun f => !(fieldNameIsSync f)) := by
  rw [List.filter_append]
  have : fieldNameIsSync (JVal.obj [("name", .str SYNC_FIELD), ("value", .str v),
      ("type", .num 0)]) = true := by
    unfold fieldNameIsSync recGetD
    simp [asObj, objGet]
  simp [this]

/-- Reading back a just-written custom field returns the written value. -/
theorem getFieldValue_setFieldValue {fs fs2 : List JVal} {n v : String}
    (h : setFieldValue fs n v = some fs2) : getFieldValue fs2 n = v := by
  induction fs generalizing fs2 with
  | nil => simp [setFieldValue] at h
  | cons f rest ih =>
      by_cases hf : fieldNameIs f n
      · rw [setFieldValue, if_pos hf] at h
        obtain rfl := Option.some.inj h
        rw [getFieldValue]
        cases f with
        | obj kvs =>
            rw [if_pos (by rw [fieldNameIs_objSet_value]; exact hf)]
            unfold recGetD
            simp [asObj, objGet_objSet_self]
        | null => simp [fieldNameIs, recGetD, asObj, objGet] at hf
        | bool b => simp [fieldNameIs, recGetD, asObj, objGet] at hf
        | num m => simp [fieldNameIs, recGetD, asObj, objGet] at hf
        | str s => simp [fieldNameIs, recGetD, asObj, objGet] at hf
        | arr xs => simp [fieldNameIs, recGetD, asObj, objGet] at hf
      · rw [setFieldValue, if_neg hf] at h
        rcases hrec : setFieldValue rest n v with _ | fs3
        · rw [hrec] at h
          exact absurd h (by simp)
        · rw [hrec] at h
          obtain rfl := Option.some.inj h
          rw [getFieldValue, if_neg hf]
          exact ih hrec

theorem setFieldValue_none_no_match {fs : List JVal} {n v : String}
    (h : setFieldValue fs n v = none) :
    ∀ f ∈ fs, fieldNameIs f n = false := by
  induction fs with
  | nil => simp
  | cons f rest ih =>
      by_cases hf : fieldNameIs f n
      · rw [setFieldValue, if_pos hf] at h
        exact absurd h (by simp)
      · rw [setFieldValue, if_neg hf] at h
        rcases hrec : setFieldValue rest n v with _ | fs3
        · intro g hg
          rcases List.mem_cons.mp hg with hg | hg
          · subst hg
            simpa using hf
          · exact ih hrec g hg
        · rw [hrec] at h
          exact absurd h (by simp)

theorem getFieldValue_append_no_match {fs : List JVal} {n : String}
    (h : ∀ f ∈ fs, fieldNameIs f n = false) (g : JVal) :
    getFieldValue (fs ++ [g]) n = getFieldValue [g] n := by
  induction fs with
  | nil => rfl
  | cons f rest ih =>
      rw [List.cons_append, getFieldValue,
        if_neg (by simp [h f (by simp)])]
      exact ih (fun f' hf' => h f' (by simp [hf']))

theorem get_custom_field_objSetFields (item : JVal) (F : List JVal)
    (n : String) :
    get_custom_field (.obj (objSet (asObj item) "fields" (.arr F))) n =
      getFieldValue F n := by
  unfold get_custom_field recGetD
  simp [asObj, objGet_objSet_self, pyListOr]

/-- `get_custom_field` after `set_custom_field` returns the written value. -/
theorem get_custom_field_set (item : JVal) (n v : String) :
    get_custom_field (set_custom_field item n v) n = v := by
  unfold set_custom_field
  rcases hset : setFieldValue (pyListOr (recGetD item "fields" .null)) n v
    with _ | fs2
  · simp only [hset]
    rw [get_custom_field_objSetFields]
    rw [getFieldValue_append_no_match (setFieldValue_none_no_match hset)]
    rw [getFieldValue,
      if_pos (by unfold fieldNameIs recGetD; simp [asObj, objGet])]
    unfold recGetD
    simp [asObj, objGet]
  · simp only [hset]
    rw [get_custom_field_objSetFields]
    exact getFieldValue_setFieldValue hset

theorem get_sync_id_set_sync_id (item : JVal) (v : String) :
    get_sync_id (set_sync_id item v) = v :=
  get_custom_field_set item SYNC_FIELD v

/-- A record with a usable custom field stores its fields as a literal
list. -/
theorem fields_arr_of_get_ne {r : JVal} {n : String}
    (h : get_custom_field r n ≠ "") :
    ∃ fs, objGet (asObj r) "fields" = some (.arr fs) := by
  unfold get_custom_field recGetD at h
  rcases hget : objGet (asObj r) "fields" with _ | w
  · rw [hget] at h
    simp [pyListOr, getFieldValue] at h
  · rw [hget] at h
    cases w with
    | arr fs => exact ⟨fs, rfl⟩
    | null => simp [pyListOr, getFieldValue] at h
    | bool b => simp [pyListOr, getFieldValue] at h
    | num m => simp [pyListOr, getFieldValue] at h
    | str s => simp [pyListOr, getFieldValue] at h
    | obj kvs => simp [pyListOr, getFieldValue] at h

/-! ### How the normalization steps interact with unrelated keys -/

theorem objGet_normLoginStep {k : String} (h : k ≠ "login")
    (m : List (String × JVal)) : objGet (normLoginStep m) k = objGet m k := by
  unfold normLoginStep
  rcases hget : objGet m "login" with _ | w
  · rfl
  · cases w <;> first
      | rfl
      | exact objGet_objSet_ne m _ h

theorem objGet_normFieldsStep {k : String} (h : k ≠ "fields")
    (m : List (String × JVal)) : objGet (normFieldsStep m) k = objGet m k := by
  unfold normFieldsStep
  rcases hget : objGet m "fields" with _ | w
  · rfl
  · cases w <;> first
      | rfl
      | exact objGet_objSet_ne m _ h

theorem objGet_normNotesStep {k : String} (h : k ≠ "notes")
    (m : List (String × JVal)) : objGet (normNotesStep m) k = objGet m k := by
  unfold normNotesStep
  rcases hget : objGet m "notes" with _ | w
  · exact objGet_objSet_ne m _ h
  · cases w <;> first
      | rfl
      | exact objGet_objSet_ne m _ h

/-- The login step commutes with replacing the `fields` value. -/
theorem normLoginStep_objSet_fields (m : List (String × JVal)) (X : JVal)
    (hm : "fields" ∈ m.map Prod.fst) :
    normLoginStep (objSet m "fields" X) = objSet (normLoginStep m) "fields" X := by
  unfold normLoginStep
  rw [objGet_objSet_ne m X (show ("login" : String) ≠ "fields" by decide)]
  rcases hget : objGet m "login" with _ | w
  · rfl
  · cases w <;> first
      | rfl
      | exact objSet_comm (by decide) m hm X _

/-- The notes step commutes with replacing the `fields` value (the `fields`
key is present, so the set is an in-place replace on both sides). -/
theorem normNotesStep_objSet_fields (m : List (String × JVal)) (X : JVal)
    (hm : "fields" ∈ m.map Prod.fst) :
    normNotesStep (objSet m "fields" X) = objSet (normNotesStep m) "fields" X := by
  unfold normNotesStep
  rw [objGet_objSet_ne m X (show ("notes" : String) ≠ "fields" by decide)]
  rcases hget : objGet m "notes" with _ | w
  · exact objSet_comm (by decide) m hm X _
  · cases w <;> first
      | rfl
      | exact objSet_comm (by decide) m hm X _

/-- Replacing the `fields` list of a record with one whose non-sync entries
are unchanged does not change the normalized projection. -/
theorem normalize_item_objSet_fields {r : JVal} {fs fs' : List JVal}
    (h : objGet (asObj r) "fields" = some (.arr fs))
    (hf : fs'.filter (fun f => !(fieldNameIsSync f)) =
      fs.filter (fun f => !(fieldNameIsSync f))) :
    normalize_item (.obj (objSet (asObj r) "fields" (.arr fs'))) =
      normalize_item r := by
  unfold normalize_item
  have hkeep : ∀ w : JVal,
      (fun kv : String × JVal => !(IGNORED_FIELDS.contains kv.1)) ("fields", w)
        = true := by
    intro w
    simp [IGNORED_FIELDS, SYNC_FIELD]
  have hdrop : dropIgnored (objSet (asObj r) "fields" (.arr fs')) =
      objSet (dropIgnored (asObj r)) "fields" (.arr fs') :=
    filter_objSet hkeep (asObj r) _
  have h0 : asObj (JVal.obj (objSet (asObj r) "fields" (.arr fs'))) =
      objSet (asObj r) "fields" (.arr fs') := rfl
  rw [h0, hdrop]
  have hdget : objGet (dropIgnored (asObj r)) "fields" = some (.arr fs) := by
    unfold dropIgnored
    rw [objGet_filter hkeep (asObj r)]
    exact h
  have hdmem : "fields" ∈ (dropIgnored (asObj r)).map Prod.fst := by
    by_contra hmem
    rw [(objGet_eq_none _ _).mpr hmem] at hdget
    exact Option.noConfusion hdget
  rw [normLoginStep_objSet_fields _ _ hdmem]
  have hlget : objGet (normLoginStep (dropIgnored (asObj r))) "fields" =
      some (.arr fs) := by
    rw [objGet_normLoginStep (by decide)]
    exact hdget
  have hlmem : "fields" ∈ (normLoginStep (dropIgnored (asObj r))).map Prod.fst := by
    by_contra hmem
    rw [(objGet_eq_none _ _).mpr hmem] at hlget
    exact Option.noConfusion hlget
  have hfields : normFieldsStep
      (objSet (normLoginStep (dropIgnored (asObj r))) "fields" (.arr fs')) =
      normFieldsStep (normLoginStep (dropIgnored (asObj r))) := by
    unfold normFieldsStep
    rw [objGet_objSet_self, hlget]
    dsimp only
    rw [hf, objSet_objSet]
  rw [hfields]

/-- Attaching (or refreshing) the `sync_id` custom field of a record that
already stores a `fields` list does not change its normalized projection. -/
theorem normalize_item_set_sync_id {r : JVal} {fs : List JVal} (v : String)
    (h : objGet (asObj r) "fields" = some (.arr fs)) :
    normalize_item (set_sync_id r v) = normalize_item r := by
  unfold set_sync_id set_custom_field
  have hlist : pyListOr (recGetD r "fields" .null) = fs := by
    unfold recGetD
    rw [h]
    rfl
  rw [hlist]
  rcases hset : setFieldValue fs SYNC_FIELD v with _ | fs2
  · simp only [hset]
    exact normalize_item_objSet_fields h (filter_append_sync fs v)
  · simp only [hset]
    exact normalize_item_objSet_fields h (filter_setFieldValue hset)

/-! ### Characterizing the identity-assignment loops -/

theorem srcLoop_eq (items : List JVal) (m : List (String × JVal))
    (u : List JVal) :
    srcLoop items m u =
      (items.foldl
        (fun acc s => objSet acc (assignSid s) (set_sync_id s (assignSid s))) m,
       u) := by
  induction items generalizing m with
  | nil => rfl
  | cons s rest ih =>
      show (if assignSid s ≠ "" then
          srcLoop rest (objSet m (assignSid s) (set_sync_id s (assignSid s))) u
        else srcLoop rest m (u ++ [set_sync_id s (assignSid s)])) = _
      rw [if_pos (assignSid_ne_empty s), ih]
      rfl

theorem dstLoop_eq (items : List JVal) (m : List (String × JVal))
    (u : List JVal) :
    dstLoop items m u =
      (items.foldl (fun acc d => objSet acc (assignSid d) d) m, u) := by
  induction items generalizing m with
  | nil => rfl
  | cons d rest ih =>
      show (if assignSid d ≠ "" then
          dstLoop rest (objSet m (assignSid d) d) u
        else dstLoop rest m (u ++ [d])) = _
      rw [if_pos (assignSid_ne_empty d), ih]
      rfl

theorem srcPhase_eq (items : List JVal) :
    srcPhase items =
      (items.foldl
        (fun acc s => objSet acc (assignSid s) (set_sync_id s (assignSid s))) [],
       []) :=
  srcLoop_eq items [] []

theorem dstPhase_eq (items : List JVal) :
    dstPhase items =
      (items.foldl (fun acc d => objSet acc (assignSid d) d) [], []) :=
  dstLoop_eq items [] []

/-- Every entry of a fold-built map is an `(key x, val x)` pair of some
processed record (or came from the accumulator). -/
theorem mem_foldl_objSet (keyf : JVal → String) (valf : JVal → JVal)
    (items : List JVal) (acc : List (String × JVal)) :
    ∀ p ∈ items.foldl (fun m x => objSet m (keyf x) (valf x)) acc,
      p ∈ acc ∨ ∃ x ∈ items, p = (keyf x, valf x) := by
  induction items generalizing acc with
  | nil =>
      intro p hp
      exact Or.inl hp
  | cons x rest ih =>
      intro p hp
      rw [List.foldl_cons] at hp
      rcases ih (objSet acc (keyf x) (valf x)) p hp with h | h
      · rcases mem_vals_objSet h with h' | h'
        · exact Or.inl h'
        · exact Or.inr ⟨x, by simp, h'⟩
      · obtain ⟨y, hy, hyp⟩ := h
        exact Or.inr ⟨y, by simp [hy], hyp⟩

theorem getFieldValue_all_null {fs : List JVal} {n : String}
    (h : ∀ f ∈ fs, fieldNameIs f n = true → recGetD f "value" .null = .null) :
    getFieldValue fs n = "" := by
  induction fs with
  | nil => rfl
  | cons f rest ih =>
      rw [getFieldValue]
      by_cases hf : fieldNameIs f n
      · rw [if_pos hf, h f (by simp) hf]
      · rw [if_neg hf]
        exact ih (fun g hg => h g (by simp [hg]))

mutual
theorem deepcopyJ_eq (v : JVal) : deepcopyJ v = v := by
  cases v with
  | null => rfl
  | bool b => rfl
  | num n => rfl
  | str s => rfl
  | arr xs => simp [deepcopyJ, deepcopyArr_eq xs]
  | obj kvs => simp [deepcopyJ, deepcopyObj_eq kvs]

theorem deepcopyArr_eq (xs : List JVal) : deepcopyArr xs = xs := by
  cases xs with
  | nil => rfl
  | cons x rest => simp [deepcopyArr, deepcopyJ_eq x, deepcopyArr_eq rest]

theorem deepcopyObj_eq (kvs : List (String × JVal)) : deepcopyObj kvs = kvs := by
  cases kvs with
  | nil => rfl
  | cons kv rest =>
      obtain ⟨k, v⟩ := kv
      simp [deepcopyObj, deepcopyJ_eq v, deepcopyObj_eq rest]
end

/-- A record with a usable custom field is truthy (a non-empty dict). -/
theorem pyTruthy_of_get_ne {r : JVal} {n : String}
    (h : get_custom_field r n ≠ "") : pyTruthy r = true := by
  obtain ⟨fs, hfs⟩ := fields_arr_of_get_ne h
  cases r with
  | obj kvs =>
      cases kvs with
      | nil => simp [asObj, objGet] at hfs
      | cons kv rest => simp [pyTruthy]
  | null => simp [asObj, objGet] at hfs
  | bool b => simp [asObj, objGet] at hfs
  | num m => simp [asObj, objGet] at hfs
  | str s => simp [asObj, objGet] at hfs
  | arr xs => simp [asObj, objGet] at hfs

/-! ## Claim C4: fuzzy-key collisions double-claim a destination record -/

/-- C4: at the failing input — two unmatched source records sharing the fuzzy
key `acme|` and one unmatched destination record with that key — the fuzzy
matcher returns BOTH colliding sources as update pairs claiming the SAME
destination record, and no create candidate.  `match_one` only reads
`dst_lookup`, which is never updated when a destination is claimed, so the
claim's required behaviour (destination claimed exactly once, loser returned
as a create) does not hold. -/
theorem c4_fuzzy_double_claim :
    match_unmatched
        [JVal.obj [("name", .str "acme")],
         JVal.obj [("name", .str "acme"), ("notes", .str "b")]]
        [JVal.obj [("name", .str "acme"), ("x", .num 1)]] =
      ([(JVal.obj [("name", .str "acme")],
         JVal.obj [("name", .str "acme"), ("x", .num 1)]),
        (JVal.obj [("name", .str "acme"), ("notes", .str "b")],
         JVal.obj [("name", .str "acme"), ("x", .num 1)])],
       [], []) := by
  decide

/-! ## Claim C3: empty records still get a fingerprint -/

/-- C3 (counterexample): a record whose name, login username, and first URI
are all absent — the empty record — receives a NON-empty fingerprint (the
digest of the string with two pipes), and the identity-assignment loops leave
the unmatched buckets empty instead of routing the record to the fuzzy
phase. -/
theorem c3_counterexample :
    compute_sync_id (JVal.obj []) ≠ "" ∧
      (srcPhase [JVal.obj []]).2 = [] ∧ (dstPhase [JVal.obj []]).2 = [] := by
  refine ⟨compute_sync_id_ne_empty _, ?_, ?_⟩
  · rw [srcPhase_eq]
  · rw [dstPhase_eq]

/-- C3 (amended): fingerprint computation never yields an empty fingerprint —
`compute_sync_id` hashes even fully empty name/username/URI into a 64-digit
digest — and consequently no record ever lands in the unmatched buckets:
the fuzzy phase always receives empty lists. -/
theorem c3_fingerprint_amended (r : JVal) (items : List JVal) :
    compute_sync_id r ≠ "" ∧
      (srcPhase items).2 = [] ∧ (dstPhase items).2 = [] := by
  refine ⟨compute_sync_id_ne_empty r, ?_, ?_⟩
  · rw [srcPhase_eq]
  · rw [dstPhase_eq]

/-! ## Claim C9: the normalizer does not mutate its argument -/

/-- C9: the normalizer and the equality oracle leave their arguments
unchanged: the body operates on `copy.deepcopy(item)`, which shares no
structure with the caller's record, so the caller-visible record after the
call is the record passed in, and the result is exactly the pure
`normalize_item` / `items_differ` value. -/
theorem c9_normalize_frame (r s : JVal) :
    (normalizeItemMut r).1 = r ∧ (normalizeItemMut r).2 = normalize_item r ∧
      (itemsDifferMut r s).1 = (r, s) ∧
      (itemsDifferMut r s).2 = items_differ r s := by
  refine ⟨rfl, ?_, rfl, ?_⟩
  · unfold normalizeItemMut normalize_item
    rw [deepcopyJ_eq r]
  · unfold itemsDifferMut items_differ normalizeItemMut normalize_item
    rw [deepcopyJ_eq r, deepcopyJ_eq s]

/-! ## Claim C10: a null custom field reads as empty and is re-fingerprinted -/

/-- C10: reading a custom field returns the empty string both when no field of
that name exists and when every such field holds a null value, and a record
whose `sync_id` reads empty is assigned a freshly computed fingerprint in
`plan()`'s identity phase. -/
theorem c10_null_custom_field (r : JVal) (n : String)
    (h : ∀ f ∈ pyListOr (recGetD r "fields" .null),
      fieldNameIs f n = true → recGetD f "value" .null = .null) :
    get_custom_field r n = "" ∧
      (get_sync_id r = "" → assignSid r = compute_sync_id r) := by
  constructor
  · exact getFieldValue_all_null h
  · intro h0
    unfold assignSid
    rw [if_neg (by simp [h0])]

theorem c10_witness :
    get_custom_field nullSyncRec SYNC_FIELD = "" ∧
      assignSid nullSyncRec = compute_sync_id nullSyncRec := by
  have h := c10_null_custom_field nullSyncRec SYNC_FIELD (by decide)
  exact ⟨h.1, h.2 (by decide)⟩

/-! ## Claim C2: identity assignment attaches the field on the source side only -/

/-- C2 (counterexample): a destination record with no `sync_id` is
fingerprinted into `dst_map` by the identity phase, yet the record stored
there is the unmodified fetched record and still carries no `sync_id` custom
field afterwards — `plan()` never calls `set_sync_id` on the destination
side. -/
theorem c2_counterexample :
    (dstPhase [JVal.obj [("name", JVal.str "a")]]).1 =
      [(assignSid (JVal.obj [("name", JVal.str "a")]),
        JVal.obj [("name", JVal.str "a")])] ∧
      get_sync_id (JVal.obj [("name", JVal.str "a")]) = "" := by
  constructor
  · rw [dstPhase_eq]
    rfl
  · decide

/-- C2 (amended): after the identity-assignment phase every record in the
source map is some fetched source record with its sync id attached in place
(so it carries the field, whose value reads back as the assigned id); an
existing non-empty `sync_id` is trusted — the assigned id is the existing
value, never a newly computed one; destination records, however, are bucketed
by a computed id but never written to: the destination map holds the fetched
records themselves. -/
theorem c2_identity_assignment_amended (items : List JVal) :
    (∀ p ∈ (srcPhase items).1, ∃ s ∈ items,
        p = (assignSid s, set_sync_id s (assignSid s)) ∧
        get_sync_id p.2 = assignSid s) ∧
      (∀ s : JVal, get_sync_id s ≠ "" → assignSid s = get_sync_id s) ∧
      (∀ p ∈ (dstPhase items).1, p.2 ∈ items) := by
  refine ⟨?_, ?_, ?_⟩
  · intro p hp
    rw [srcPhase_eq] at hp
    rcases mem_foldl_objSet assignSid (fun s => set_sync_id s (assignSid s))
        items [] p hp with h | h
    · simp at h
    · obtain ⟨s, hs, hps⟩ := h
      refine ⟨s, hs, hps, ?_⟩
      rw [hps]
      exact get_sync_id_set_sync_id s (assignSid s)
  · intro s h
    unfold assignSid
    rw [if_pos h]
  · intro p hp
    rw [dstPhase_eq] at hp
    rcases mem_foldl_objSet assignSid (fun d => d) items [] p hp with h | h
    · simp at h
    · obtain ⟨d, hd, hpd⟩ := h
      rw [hpd]
      exact hd

theorem c2_witness : assignSid syncedRec = get_sync_id syncedRec :=
  (c2_identity_assignment_amended []).2.1 syncedRec (by decide)

/-! ## Claim C6: failures abort the whole plan -/

theorem compareFilterE_error {ε : Type} (cmp : JVal → JVal → Except ε Bool)
    {ps : List (JVal × JVal)}
    (h : ∃ p ∈ ps, ∃ e, cmp p.1 p.2 = .error e) :
    ∃ e2, compareFilterE cmp ps = .error e2 := by
  induction ps with
  | nil => simp at h
  | cons p rest ih =>
      obtain ⟨q, hq, e, he⟩ := h
      rcases List.mem_cons.mp hq with rfl | hq1
      · exact ⟨e, by rw [compareFilterE, he]⟩
      · rcases hc : cmp p.1 p.2 with e1 | b
        · exact ⟨e1, by rw [compareFilterE, hc]⟩
        · obtain ⟨e2, h2⟩ := ih ⟨q, hq1, e, he⟩
          exact ⟨e2, by rw [compareFilterE, hc, h2]⟩

theorem compareFilterE_pure (ε : Type) (ps : List (JVal × JVal)) :
    compareFilterE (fun a b => (.ok (items_differ a b) : Except ε Bool)) ps =
      .ok (compareFilter ps) := by
  induction ps with
  | nil => rfl
  | cons p rest ih =>
      rw [compareFilterE, ih]
      dsimp only
      rcases hd : items_differ p.1 p.2 with _ | _
      · simp [hd, compareFilter, List.filter_cons]
      · simp [hd, compareFilter, List.filter_cons]

/-- With the two fetches succeeding and every comparison task returning
normally, `planE` computes exactly `plan`. -/
theorem planE_refines_plan (ε : Type) (src_items dst_items : List JVal) :
    planE (.ok src_items) (.ok dst_items)
        (fun a b => (.ok (items_differ a b) : Except ε Bool)) =
      .ok (plan src_items dst_items) := by
  rw [planE, plan]
  simp only [compareFilterE_pure]

/-- C6: `plan()` never produces a partial plan on failure.  A failing source
fetch aborts before anything else (and so does a failing destination fetch:
both `list_items()` calls precede all matching), and if any comparison task
raises, the exception propagates out of `plan()`: the run yields an error,
not a plan. -/
theorem c6_failure_propagation {ε : Type} (e : ε)
    (fetchDst : Except ε (List JVal)) (cmp : JVal → JVal → Except ε Bool)
    (src_items dst_items : List JVal) :
    planE (.error e) fetchDst cmp = .error e ∧
    planE (.ok src_items) (.error e) cmp = .error e ∧
    ((∃ p ∈ (exactMatch (srcPhase src_items).1 (dstPhase dst_items).1).1,
        ∃ e2, cmp p.1 p.2 = .error e2) →
      ∃ e3, planE (.ok src_items) (.ok dst_items) cmp = .error e3) := by
  refine ⟨rfl, rfl, ?_⟩
  intro h
  obtain ⟨e3, h3⟩ := compareFilterE_error cmp h
  refine ⟨e3, ?_⟩
  rw [planE]
  rw [h3]

theorem c6_witness :
    planE (.error "store down") (.ok ([] : List JVal))
        (fun a b => .ok (items_differ a b)) = .error "store down" ∧
      ∃ e3, planE (.ok [syncedRec]) (.ok [syncedDstRec])
        (fun _ _ => (.error "task failed" : Except String Bool)) = .error e3 := by
  constructor
  · exact (c6_failure_propagation "store down" _ _ [] []).1
  · exact (c6_failure_propagation "task failed" (.ok []) _ [syncedRec]
      [syncedDstRec]).2.2
      ⟨(set_sync_id syncedRec (assignSid syncedRec), syncedDstRec),
        by decide, "task failed", rfl⟩

/-! ## Claim C5: mirror-state stability -/

theorem objGet_eraseMeta (r : JVal) {k : String}
    (hk : metaKeys.contains k = false) :
    objGet (eraseMeta r) k = objGet (asObj r) k := by
  unfold eraseMeta
  exact objGet_filter
    (fun w => by show (!(metaKeys.contains k)) = true; rw [hk]; rfl) _

theorem recGetD_eq_of_eraseMeta {s d : JVal} (h : eraseMeta s = eraseMeta d)
    {k : String} (hk : metaKeys.contains k = false) (dflt : JVal) :
    recGetD s k dflt = recGetD d k dflt := by
  unfold recGetD
  rw [← objGet_eraseMeta s hk, ← objGet_eraseMeta d hk, h]

theorem get_sync_id_eq_of_eraseMeta {s d : JVal}
    (h : eraseMeta s = eraseMeta d) : get_sync_id s = get_sync_id d := by
  unfold get_sync_id get_custom_field
  rw [recGetD_eq_of_eraseMeta h (by decide) JVal.null]

theorem compute_sync_id_eq_of_eraseMeta {s d : JVal}
    (h : eraseMeta s = eraseMeta d) :
    compute_sync_id s = compute_sync_id d := by
  unfold compute_sync_id
  rw [recGetD_eq_of_eraseMeta h (by decide) JVal.null,
    recGetD_eq_of_eraseMeta h (by decide) (JVal.obj [])]

theorem assignSid_eq_of_eraseMeta {s d : JVal}
    (h : eraseMeta s = eraseMeta d) : assignSid s = assignSid d := by
  unfold assignSid
  rw [get_sync_id_eq_of_eraseMeta h, compute_sync_id_eq_of_eraseMeta h]

theorem ignored_contains_eq (k : String) :
    IGNORED_FIELDS.contains k = (metaKeys.contains k || (k == SYNC_FIELD)) := by
  unfold IGNORED_FIELDS metaKeys
  by_cases h1 : k = "id" <;> by_cases h2 : k = "revisionDate" <;>
    by_cases h3 : k = "creationDate" <;> by_cases h4 : k = "deletedDate" <;>
    by_cases h5 : k = "organizationId" <;> by_cases h6 : k = SYNC_FIELD <;>
    simp [h1, h2, h3, h4, h5, h6]

theorem dropIgnored_eraseMeta (r : JVal) :
    dropIgnored (asObj r) =
      (eraseMeta r).filter (fun kv => !(kv.1 == SYNC_FIELD)) := by
  unfold dropIgnored eraseMeta
  rw [List.filter_filter]
  apply List.filter_congr
  intro kv _
  rw [ignored_contains_eq kv.1]
  rcases hm : metaKeys.contains kv.1 with _ | _ <;>
    rcases hs : kv.1 == SYNC_FIELD with _ | _ <;> simp [hm, hs]

theorem normalize_item_eq_of_eraseMeta {s d : JVal}
    (h : eraseMeta s = eraseMeta d) : normalize_item s = normalize_item d := by
  unfold normalize_item
  rw [dropIgnored_eraseMeta, dropIgnored_eraseMeta, h]

theorem items_differ_false_of_normalize_eq {a b : JVal}
    (h : normalize_item a = normalize_item b) : items_differ a b = false := by
  simp [items_differ, h]

/-- The three facts the no-op proof needs about each mirrored pair. -/
theorem mirror_pair_rel {s d : JVal} (h1 : eraseMeta s = eraseMeta d)
    (h2 : get_sync_id s ≠ "") :
    assignSid s = assignSid d ∧
      items_differ (set_sync_id s (assignSid s)) d = false ∧
      pyTruthy d = true := by
  have h2d : get_sync_id d ≠ "" := by
    rw [← get_sync_id_eq_of_eraseMeta h1]
    exact h2
  obtain ⟨fs, hfs⟩ := fields_arr_of_get_ne h2
  refine ⟨assignSid_eq_of_eraseMeta h1, ?_, pyTruthy_of_get_ne h2d⟩
  apply items_differ_false_of_normalize_eq
  rw [normalize_item_set_sync_id _ hfs]
  exact normalize_item_eq_of_eraseMeta h1

theorem forall2_objSet {m1 m2 : List (String × JVal)} {k : String} {v w : JVal}
    (h : List.Forall₂ pairQ m1 m2) (hvw : pairQ (k, v) (k, w)) :
    List.Forall₂ pairQ (objSet m1 k v) (objSet m2 k w) := by
  induction h with
  | nil => exact .cons hvw .nil
  | @cons a b l1 l2 hab hrest ih =>
      obtain ⟨ka, va⟩ := a
      obtain ⟨kb, wb⟩ := b
      have hk : ka = kb := hab.1
      subst hk
      by_cases hka : ka = k
      · subst hka
        simp only [objSet, if_pos rfl]
        exact .cons hvw hrest
      · simp only [objSet, if_neg hka]
        exact .cons hab ih

theorem keys_eq_of_forall2 {m1 m2 : List (String × JVal)}
    (h : List.Forall₂ pairQ m1 m2) :
    m1.map Prod.fst = m2.map Prod.fst := by
  induction h with
  | nil => rfl
  | cons hab _ ih => simp [hab.1, ih]

theorem forall2_buildMaps (ps : List (JVal × JVal))
    (h : ∀ p ∈ ps, assignSid p.1 = assignSid p.2 ∧
      items_differ (set_sync_id p.1 (assignSid p.1)) p.2 = false ∧
      pyTruthy p.2 = true)
    (acc1 acc2 : List (String × JVal)) (hacc : List.Forall₂ pairQ acc1 acc2) :
    List.Forall₂ pairQ
      ((ps.map Prod.fst).foldl
        (fun m s => objSet m (assignSid s) (set_sync_id s (assignSid s))) acc1)
      ((ps.map Prod.snd).foldl (fun m d => objSet m (assignSid d) d) acc2) := by
  induction ps generalizing acc1 acc2 with
  | nil => exact hacc
  | cons p rest ih =>
      obtain ⟨hsid, hdiff, htr⟩ := h p (by simp)
      simp only [List.map_cons, List.foldl_cons]
      apply ih (fun q hq => h q (by simp [hq]))
      rw [← hsid]
      exact forall2_objSet hacc ⟨rfl, hdiff, htr⟩

theorem keys_objSet_of_not_has {kvs : List (String × JVal)} {k : String}
    (h : k ∉ kvs.map Prod.fst) (v : JVal) :
    (objSet kvs k v).map Prod.fst = kvs.map Prod.fst ++ [k] := by
  induction kvs with
  | nil => simp [objSet]
  | cons kv rest ih =>
      obtain ⟨k0, v0⟩ := kv
      simp only [List.map_cons, List.mem_cons] at h
      push_neg at h
      simp [objSet, Ne.symm h.1, ih h.2]

theorem nodup_keys_objSet (kvs : List (String × JVal)) (k : String) (v : JVal)
    (h : (kvs.map Prod.fst).Nodup) : ((objSet kvs k v).map Prod.fst).Nodup := by
  by_cases hk : k ∈ kvs.map Prod.fst
  · rw [keys_objSet_of_has hk]
    exact h
  · rw [keys_objSet_of_not_has hk]
    simp [List.nodup_append, h, hk]

theorem nodup_keys_foldl (kf : JVal → String) (vf : JVal → JVal)
    (items : List JVal) (acc : List (String × JVal))
    (h : (acc.map Prod.fst).Nodup) :
    (((items.foldl (fun m x => objSet m (kf x) (vf x)) acc)).map
      Prod.fst).Nodup := by
  induction items generalizing acc with
  | nil => exact h
  | cons x rest ih =>
      simp only [List.foldl_cons]
      exact ih _ (nodup_keys_objSet acc (kf x) (vf x) h)

/-- With unique keys, every entry of the source map finds a truthy,
non-differing partner in the destination map. -/
theorem objGet_partner {m1 m2 : List (String × JVal)}
    (h : List.Forall₂ pairQ m1 m2) (hnd : (m1.map Prod.fst).Nodup) :
    ∀ e ∈ m1, ∃ d, objGet m2 e.1 = some d ∧ pyTruthy d = true ∧
      items_differ e.2 d = false := by
  induction h with
  | nil => simp
  | @cons a b l1 l2 hab hrest ih =>
      obtain ⟨ka, va⟩ := a
      obtain ⟨kb, wb⟩ := b
      have hk : ka = kb := hab.1
      subst hk
      intro e he
      rcases List.mem_cons.mp he with rfl | he1
      · exact ⟨wb, by simp [objGet], hab.2.2, hab.2.1⟩
      · have hnd1 : (l1.map Prod.fst).Nodup := (List.nodup_cons.mp hnd).2
        obtain ⟨d, hd, htr, hdf⟩ := ih hnd1 e he1
        have hne : ka ≠ e.1 := by
          intro hcontra
          have hmem : e.1 ∈ l1.map Prod.fst := List.mem_map_of_mem Prod.fst he1
          rw [← hcontra] at hmem
          exact (List.nodup_cons.mp hnd).1 hmem
        exact ⟨d, by simp [objGet, hne, hd], htr, hdf⟩

theorem exactMatch_all_matched {m1 M : List (String × JVal)}
    (h : ∀ e ∈ m1, ∃ d, objGet M e.1 = some d ∧ pyTruthy d = true ∧
      items_differ e.2 d = false) :
    (exactMatch m1 M).2 = [] ∧ compareFilter (exactMatch m1 M).1 = [] := by
  induction m1 with
  | nil => exact ⟨rfl, rfl⟩
  | cons e rest ih =>
      obtain ⟨sid, s⟩ := e
      obtain ⟨d, hd, htr, hdf⟩ := h (sid, s) (by simp)
      obtain ⟨ih2, ih1⟩ := ih (fun e' he' => h e' (by simp [he']))
      rw [exactMatch]
      rw [hd]
      simp only [htr, if_pos]
      constructor
      · exact ih2
      · rw [compareFilter, List.filter_cons]
        simp only [hdf, cond_false]
        exact ih1

theorem findDeletes_nil {m2 m1 : List (String × JVal)}
    (h : ∀ k ∈ m2.map Prod.fst, k ∈ m1.map Prod.fst) :
    findDeletes m2 m1 = [] := by
  induction m2 with
  | nil => rfl
  | cons e rest ih =>
      obtain ⟨sid, d⟩ := e
      rw [findDeletes, if_pos ((objHas_iff m1 sid).mpr (h sid (by simp)))]
      exact ih (fun k hk => h k (by simp [hk]))

/-- C5: if the source and destination fetches return pairwise mirrored
records — each pair bearing the same (non-empty) `sync_id` custom field and
agreeing on everything except the store-managed metadata keys — then `plan()`
returns empty `toCreate`, empty `toUpdate`, and empty `toDelete`. -/
theorem c5_noop_stability (ps : List (JVal × JVal))
    (h : ∀ p ∈ ps, eraseMeta p.1 = eraseMeta p.2 ∧ get_sync_id p.1 ≠ "") :
    plan (ps.map Prod.fst) (ps.map Prod.snd) = ([], [], []) := by
  have hrel : ∀ p ∈ ps, assignSid p.1 = assignSid p.2 ∧
      items_differ (set_sync_id p.1 (assignSid p.1)) p.2 = false ∧
      pyTruthy p.2 = true :=
    fun p hp => mirror_pair_rel (h p hp).1 (h p hp).2
  have hF2 := forall2_buildMaps ps hrel [] [] .nil
  have hnd := nodup_keys_foldl
    (fun s => assignSid s) (fun s => set_sync_id s (assignSid s))
    (ps.map Prod.fst) [] (by simp)
  obtain ⟨hcreate, hupdate⟩ :=
    exactMatch_all_matched (objGet_partner hF2 hnd)
  have hdel : findDeletes
      ((ps.map Prod.snd).foldl (fun m d => objSet m (assignSid d) d) [])
      ((ps.map Prod.fst).foldl
        (fun m s => objSet m (assignSid s) (set_sync_id s (assignSid s))) []) =
      [] :=
    findDeletes_nil (fun k hk => by
      rw [← keys_eq_of_forall2 hF2] at hk
      exact hk)
  rw [plan, srcPhase_eq, dstPhase_eq]
  dsimp only
  rw [hcreate, hupdate, hdel]
  rfl

theorem c5_witness :
    plan [mirrorSrcRec] [mirrorDstRec] = ([], [], []) := by
  have h := c5_noop_stability [(mirrorSrcRec, mirrorDstRec)]
    (by
      intro p hp
      simp at hp
      subst hp
      exact ⟨by decide, by decide⟩)
  exact h

/-! ## Claim C7: comparison and fingerprint ignore metadata and `sync_id` -/

theorem scrubEntry_fst (kv : String × JVal) : (scrubEntry kv).1 = kv.1 := by
  unfold scrubEntry
  by_cases h : kv.1 = "fields" <;> simp [h]

theorem keys_map_scrubEntry (l : List (String × JVal)) :
    (l.map scrubEntry).map Prod.fst = l.map Prod.fst := by
  rw [List.map_map]
  exact List.map_congr_left (fun kv _ => scrubEntry_fst kv)

theorem scrubEntry_ne {kv : String × JVal} (h : kv.1 ≠ "fields") :
    scrubEntry kv = kv := by
  unfold scrubEntry
  rw [if_neg h]

theorem scrubEntry_at_fields {kv : String × JVal} (h : kv.1 = "fields") :
    scrubEntry kv = (kv.1, dropSyncEntries kv.2) := by
  unfold scrubEntry
  rw [if_pos h]

theorem objGet_map_scrubEntry_ne {k : String} (hk : k ≠ "fields")
    (l : List (String × JVal)) : objGet (l.map scrubEntry) k = objGet l k := by
  induction l with
  | nil => rfl
  | cons kv rest ih =>
      obtain ⟨k0, v0⟩ := kv
      rw [List.map_cons]
      by_cases h0 : k0 = k
      · subst h0
        rw [scrubEntry_ne (show ((k0 : String), v0).1 ≠ "fields" from hk)]
        simp [objGet]
      · by_cases hf : k0 = "fields"
        · rw [scrubEntry_at_fields (show ((k0 : String), v0).1 = "fields" from hf)]
          simp [objGet, h0, ih]
        · rw [scrubEntry_ne (show ((k0 : String), v0).1 ≠ "fields" from hf)]
          simp [objGet, h0, ih]

theorem objGet_map_scrubEntry_fields (l : List (String × JVal)) :
    objGet (l.map scrubEntry) "fields" =
      (objGet l "fields").map dropSyncEntries := by
  induction l with
  | nil => rfl
  | cons kv rest ih =>
      obtain ⟨k0, v0⟩ := kv
      rw [List.map_cons]
      by_cases h0 : k0 = "fields"
      · subst h0
        rw [scrubEntry_at_fields (show (("fields", v0) : String × JVal).1 =
          "fields" from rfl)]
        simp [objGet]
      · rw [scrubEntry_ne (show ((k0 : String), v0).1 ≠ "fields" from h0)]
        simp [objGet, h0, ih]

theorem map_scrubEntry_objSet {k : String} (hk : k ≠ "fields")
    (l : List (String × JVal)) (v : JVal) :
    (objSet l k v).map scrubEntry = objSet (l.map scrubEntry) k v := by
  induction l with
  | nil =>
      simp only [objSet, List.map_cons, List.map_nil]
      rw [scrubEntry_ne (show ((k : String), v).1 ≠ "fields" from hk)]
  | cons kv rest ih =>
      obtain ⟨k0, v0⟩ := kv
      by_cases hf : k0 = "fields"
      · have h0 : k0 ≠ k := by
          rw [hf]
          exact Ne.symm hk
        calc (objSet ((k0, v0) :: rest) k v).map scrubEntry
            = ((k0, v0) :: objSet rest k v).map scrubEntry := by
              simp only [objSet, if_neg h0]
          _ = (k0, dropSyncEntries v0) :: (objSet rest k v).map scrubEntry := by
              rw [List.map_cons,
                scrubEntry_at_fields (show ((k0 : String), v0).1 = "fields" from hf)]
          _ = (k0, dropSyncEntries v0) :: objSet (rest.map scrubEntry) k v := by
              rw [ih]
          _ = objSet ((k0, dropSyncEntries v0) :: rest.map scrubEntry) k v := by
              simp only [objSet, if_neg h0]
          _ = objSet (((k0, v0) :: rest).map scrubEntry) k v := by
              rw [List.map_cons,
                scrubEntry_at_fields (show ((k0 : String), v0).1 = "fields" from hf)]
      · by_cases h0 : k0 = k
        · subst h0
          calc (objSet ((k0, v0) :: rest) k0 v).map scrubEntry
              = ((k0, v) :: rest).map scrubEntry := by
                simp [objSet]
            _ = (k0, v) :: rest.map scrubEntry := by
                rw [List.map_cons,
                  scrubEntry_ne (show ((k0 : String), v).1 ≠ "fields" from hk)]
            _ = objSet ((k0, v0) :: rest.map scrubEntry) k0 v := by
                simp [objSet]
            _ = objSet (((k0, v0) :: rest).map scrubEntry) k0 v := by
                rw [List.map_cons,
                  scrubEntry_ne (show ((k0 : String), v0).1 ≠ "fields" from hf)]
        · calc (objSet ((k0, v0) :: rest) k v).map scrubEntry
              = ((k0, v0) :: objSet rest k v).map scrubEntry := by
                simp only [objSet, if_neg h0]
            _ = (k0, v0) :: (objSet rest k v).map scrubEntry := by
                rw [List.map_cons,
                  scrubEntry_ne (show ((k0 : String), v0).1 ≠ "fields" from hf)]
            _ = (k0, v0) :: objSet (rest.map scrubEntry) k v := by rw [ih]
            _ = objSet ((k0, v0) :: rest.map scrubEntry) k v := by
                simp only [objSet, if_neg h0]
            _ = objSet (((k0, v0) :: rest).map scrubEntry) k v := by
                rw [List.map_cons,
                  scrubEntry_ne (show ((k0 : String), v0).1 ≠ "fields" from hf)]

/-- Two scrub-equal entry lists with no `fields` key are equal. -/
theorem eq_of_scrubEq_no_fields {l l' : List (String × JVal)}
    (hm : l.map scrubEntry = l'.map scrubEntry)
    (hf : "fields" ∉ l.map Prod.fst) : l = l' := by
  induction l generalizing l' with
  | nil =>
      cases l' with
      | nil => rfl
      | cons h t => simp at hm
  | cons h t ih =>
      cases l' with
      | nil => simp at hm
      | cons h' t' =>
          simp only [List.map_cons, List.cons.injEq] at hm
          simp only [List.map_cons, List.mem_cons] at hf
          push_neg at hf
          have hh : h = h' := by
            have h1 := hm.1
            rw [scrubEntry_ne (Ne.symm hf.1)] at h1
            by_cases h2 : h'.1 = "fields"
            · rw [scrubEntry_at_fields h2] at h1
              have h3 := congrArg Prod.fst h1
              simp only at h3
              exact absurd (h3 ▸ h2) (Ne.symm hf.1)
            · rw [scrubEntry_ne h2] at h1
              exact h1
          exact hh ▸ congrArg (h :: ·) (ih hm.2 hf.2)

/-- Two scrub-equal entry lists with unique keys and the same `fields` value
are equal. -/
theorem eq_of_scrubEq_objGet_fields {l l' : List (String × JVal)}
    (hm : l.map scrubEntry = l'.map scrubEntry)
    (hnd : (l.map Prod.fst).Nodup)
    (hget : objGet l "fields" = objGet l' "fields") : l = l' := by
  induction l generalizing l' with
  | nil =>
      cases l' with
      | nil => rfl
      | cons h t => simp at hm
  | cons h t ih =>
      cases l' with
      | nil => simp at hm
      | cons h' t' =>
          simp only [List.map_cons, List.cons.injEq] at hm
          have hfst : h.1 = h'.1 := by
            have := congrArg Prod.fst hm.1
            rw [scrubEntry_fst, scrubEntry_fst] at this
            exact this
          have hndt : (t.map Prod.fst).Nodup := by
            rw [List.map_cons] at hnd
            exact (List.nodup_cons.mp hnd).2
          by_cases hf : h.1 = "fields"
          · have hval : h.2 = h'.2 := by
              unfold objGet at hget
              rcases h with ⟨k1, v1⟩
              rcases h' with ⟨k1', v1'⟩
              simp only at hf hfst
              subst hf
              rw [if_pos rfl] at hget
              rw [← hfst] at hget
              rw [if_pos rfl] at hget
              exact Option.some.inj hget
            have hnomem : "fields" ∉ t.map Prod.fst := by
              rw [List.map_cons] at hnd
              exact hf ▸ (List.nodup_cons.mp hnd).1
            have ht : t = t' := eq_of_scrubEq_no_fields hm.2 hnomem
            calc h :: t = h' :: t := by
                  rw [Prod.ext_iff.mpr ⟨hfst, hval⟩]
              _ = h' :: t' := by rw [ht]
          · have hh : h = h' := by
              have h1 := hm.1
              unfold scrubEntry at h1
              rw [if_neg hf] at h1
              rw [if_neg (hfst ▸ hf)] at h1
              exact h1
            have hget' : objGet t "fields" = objGet t' "fields" := by
              unfold objGet at hget
              rcases h with ⟨k1, v1⟩
              simp only at hf
              rw [if_neg hf] at hget
              have hf' : h'.1 ≠ "fields" := hfst ▸ hf
              rcases h' with ⟨k1', v1'⟩
              simp only at hf'
              rw [if_neg hf'] at hget
              exact hget
            exact hh ▸ congrArg (h :: ·) (ih hm.2 hndt hget')

/-- Two scrub-equal entry lists with unique keys are equal after replacing
`fields` with the same value. -/
theorem objSet_fields_eq_of_scrubEq {l l' : List (String × JVal)}
    (hm : l.map scrubEntry = l'.map scrubEntry)
    (hnd : (l.map Prod.fst).Nodup) (X : JVal) :
    objSet l "fields" X = objSet l' "fields" X := by
  induction l generalizing l' with
  | nil =>
      cases l' with
      | nil => rfl
      | cons h t => simp at hm
  | cons h t ih =>
      cases l' with
      | nil => simp at hm
      | cons h' t' =>
          simp only [List.map_cons, List.cons.injEq] at hm
          have hfst : h.1 = h'.1 := by
            have := congrArg Prod.fst hm.1
            rw [scrubEntry_fst, scrubEntry_fst] at this
            exact this
          have hndt : (t.map Prod.fst).Nodup := by
            rw [List.map_cons] at hnd
            exact (List.nodup_cons.mp hnd).2
          rcases h with ⟨k1, v1⟩
          rcases h' with ⟨k1', v1'⟩
          simp only at hfst
          subst hfst
          by_cases hf : k1 = "fields"
          · subst hf
            simp only [objSet, if_pos rfl]
            have hnomem : "fields" ∉ t.map Prod.fst := by
              rw [List.map_cons] at hnd
              exact (List.nodup_cons.mp hnd).1
            rw [eq_of_scrubEq_no_fields hm.2 hnomem]
            simp
          · have hh : (k1, v1) = (k1, v1') := by
              have h1 := hm.1
              unfold scrubEntry at h1
              simp only [if_neg hf] at h1
              exact h1
            obtain rfl := (Prod.mk.injEq .. ▸ hh).2
            simp only [objSet, if_neg hf]
            rw [ih hm.2 hndt]

theorem nodup_keys_filter (p : String × JVal → Bool) (l : List (String × JVal))
    (h : (l.map Prod.fst).Nodup) : ((l.filter p).map Prod.fst).Nodup :=
  ((List.filter_sublist l).map Prod.fst).nodup h

theorem map_scrubEntry_filter_sync (l : List (String × JVal)) :
    (l.filter (fun kv => !(kv.1 == SYNC_FIELD))).map scrubEntry =
      (l.map scrubEntry).filter (fun kv => !(kv.1 == SYNC_FIELD)) := by
  rw [List.filter_map]
  congr 1
  apply List.filter_congr
  intro kv _
  simp [Function.comp, scrubEntry_fst]

theorem scrubMap_dropIgnored {a a' : JVal} (h : scrubbed a = scrubbed a') :
    (dropIgnored (asObj a)).map scrubEntry =
      (dropIgnored (asObj a')).map scrubEntry := by
  rw [dropIgnored_eraseMeta, dropIgnored_eraseMeta,
    map_scrubEntry_filter_sync, map_scrubEntry_filter_sync]
  unfold scrubbed at h
  rw [h]

theorem nodup_keys_dropIgnored {a : JVal}
    (h : ((asObj a).map Prod.fst).Nodup) :
    ((dropIgnored (asObj a)).map Prod.fst).Nodup :=
  nodup_keys_filter _ _ h

theorem normSteps_eq_of_scrub {l l' : List (String × JVal)}
    (hm : l.map scrubEntry = l'.map scrubEntry)
    (hnd : (l.map Prod.fst).Nodup) :
    normNotesStep (normFieldsStep (normLoginStep l)) =
      normNotesStep (normFieldsStep (normLoginStep l')) := by
  have hkeys : l.map Prod.fst = l'.map Prod.fst := by
    rw [← keys_map_scrubEntry l, ← keys_map_scrubEntry l', hm]
  have hlog : objGet l "login" = objGet l' "login" := by
    rw [← objGet_map_scrubEntry_ne (by decide) l,
      ← objGet_map_scrubEntry_ne (by decide) l', hm]
  have step1 : (normLoginStep l).map scrubEntry =
      (normLoginStep l').map scrubEntry ∧
      ((normLoginStep l).map Prod.fst).Nodup ∧
      objGet (normLoginStep l) "fields" = objGet l "fields" ∧
      objGet (normLoginStep l') "fields" = objGet l' "fields" := by
    unfold normLoginStep
    rw [hlog]
    rcases hg : objGet l' "login" with _ | w
    · exact ⟨hm, hnd, rfl, rfl⟩
    · cases w with
      | obj lg =>
          have hmem : "login" ∈ l.map Prod.fst := by
            rw [hkeys]
            by_contra hmem
            rw [(objGet_eq_none _ _).mpr hmem] at hg
            exact Option.noConfusion hg
          refine ⟨?_, ?_, ?_, ?_⟩
          · rw [map_scrubEntry_objSet (by decide), map_scrubEntry_objSet (by decide), hm]
          · rw [keys_objSet_of_has hmem]
            exact hnd
          · exact objGet_objSet_ne l _ (by decide)
          · exact objGet_objSet_ne l' _ (by decide)
      | null => exact ⟨hm, hnd, rfl, rfl⟩
      | bool b => exact ⟨hm, hnd, rfl, rfl⟩
      | num n => exact ⟨hm, hnd, rfl, rfl⟩
      | str s => exact ⟨hm, hnd, rfl, rfl⟩
      | arr xs => exact ⟨hm, hnd, rfl, rfl⟩
  obtain ⟨hM, hMnd, hMf, hMf'⟩ := step1
  have hfget : (objGet (normLoginStep l) "fields").map dropSyncEntries =
      (objGet (normLoginStep l') "fields").map dropSyncEntries := by
    rw [← objGet_map_scrubEntry_fields, ← objGet_map_scrubEntry_fields, hM]
  have step2 : normFieldsStep (normLoginStep l) =
      normFieldsStep (normLoginStep l') := by
    rcases hf : objGet (normLoginStep l) "fields" with _ | w
    · rcases hf' : objGet (normLoginStep l') "fields" with _ | w'
      · have heq : normLoginStep l = normLoginStep l' :=
          eq_of_scrubEq_objGet_fields hM hMnd (hf.trans hf'.symm)
        rw [heq]
      · rw [hf, hf'] at hfget
        simp at hfget
    · rcases hf' : objGet (normLoginStep l') "fields" with _ | w'
      · rw [hf, hf'] at hfget
        simp at hfget
      · rw [hf, hf'] at hfget
        have hfeq : dropSyncEntries w = dropSyncEntries w' :=
          Option.some.inj hfget
        cases w with
        | arr fs =>
            cases w' with
            | arr fs' =>
                have hfilter : fs.filter (fun f => !(fieldNameIsSync f)) =
                    fs'.filter (fun f => !(fieldNameIsSync f)) := by
                  have := hfeq
                  unfold dropSyncEntries at this
                  exact JVal.arr.inj this
                unfold normFieldsStep
                rw [hf, hf']
                dsimp only
                rw [hfilter]
                exact objSet_fields_eq_of_scrubEq hM hMnd _
            | null => simp [dropSyncEntries] at hfeq
            | bool b => simp [dropSyncEntries] at hfeq
            | num n => simp [dropSyncEntries] at hfeq
            | str s => simp [dropSyncEntries] at hfeq
            | obj kvs => simp [dropSyncEntries] at hfeq
        | null =>
            cases w' with
            | arr fs' => simp [dropSyncEntries] at hfeq
            | null =>
                have heq : normLoginStep l = normLoginStep l' :=
                  eq_of_scrubEq_objGet_fields hM hMnd (by rw [hf, hf'])
                rw [heq]
            | bool b => simp [dropSyncEntries] at hfeq
            | num n => simp [dropSyncEntries] at hfeq
            | str s => simp [dropSyncEntries] at hfeq
            | obj kvs => simp [dropSyncEntries] at hfeq
        | bool b =>
            cases w' with
            | arr fs' => simp [dropSyncEntries] at hfeq
            | bool b' =>
                have heq : normLoginStep l = normLoginStep l' :=
                  eq_of_scrubEq_objGet_fields hM hMnd (by
                    rw [hf, hf']
                    simp [dropSyncEntries] at hfeq
                    rw [hfeq])
                rw [heq]
            | null => simp [dropSyncEntries] at hfeq
            | num n => simp [dropSyncEntries] at hfeq
            | str s => simp [dropSyncEntries] at hfeq
            | obj kvs => simp [dropSyncEntries] at hfeq
        | num n =>
            cases w' with
            | arr fs' => simp [dropSyncEntries] at hfeq
            | num n' =>
                have heq : normLoginStep l = normLoginStep l' :=
                  eq_of_scrubEq_objGet_fields hM hMnd (by
                    rw [hf, hf']
                    simp [dropSyncEntries] at hfeq
                    rw [hfeq])
                rw [heq]
            | null => simp [dropSyncEntries] at hfeq
            | bool b => simp [dropSyncEntries] at hfeq
            | str s => simp [dropSyncEntries] at hfeq
            | obj kvs => simp [dropSyncEntries] at hfeq
        | str s =>
            cases w' with
            | arr fs' => simp [dropSyncEntries] at hfeq
            | str s' =>
                have heq : normLoginStep l = normLoginStep l' :=
                  eq_of_scrubEq_objGet_fields hM hMnd (by
                    rw [hf, hf']
                    simp [dropSyncEntries] at hfeq
                    rw [hfeq])
                rw [heq]
            | null => simp [dropSyncEntries] at hfeq
            | bool b => simp [dropSyncEntries] at hfeq
            | num n => simp [dropSyncEntries] at hfeq
            | obj kvs => simp [dropSyncEntries] at hfeq
        | obj kvs =>
            cases w' with
            | arr fs' => simp [dropSyncEntries] at hfeq
            | obj kvs' =>
                have heq : normLoginStep l = normLoginStep l' :=
                  eq_of_scrubEq_objGet_fields hM hMnd (by
                    rw [hf, hf']
                    simp [dropSyncEntries] at hfeq
                    rw [hfeq])
                rw [heq]
            | null => simp [dropSyncEntries] at hfeq
            | bool b => simp [dropSyncEntries] at hfeq
            | num n => simp [dropSyncEntries] at hfeq
            | str s => simp [dropSyncEntries] at hfeq
  rw [step2]

theorem objGet_scrubbed_ne {r : JVal} {k : String}
    (hm : metaKeys.contains k = false) (hf : k ≠ "fields") :
    objGet (scrubbed r) k = objGet (asObj r) k := by
  unfold scrubbed
  rw [objGet_map_scrubEntry_ne hf, objGet_eraseMeta r hm]

theorem recGetD_eq_of_scrubbed {a a' : JVal} (h : scrubbed a = scrubbed a')
    {k : String} (hm : metaKeys.contains k = false) (hf : k ≠ "fields")
    (dflt : JVal) : recGetD a k dflt = recGetD a' k dflt := by
  unfold recGetD
  rw [← objGet_scrubbed_ne hm hf, ← objGet_scrubbed_ne (r := a') hm hf, h]

theorem compute_sync_id_eq_of_scrubbed {a a' : JVal}
    (h : scrubbed a = scrubbed a') :
    compute_sync_id a = compute_sync_id a' := by
  unfold compute_sync_id
  rw [recGetD_eq_of_scrubbed h (by decide) (by decide) JVal.null,
    recGetD_eq_of_scrubbed h (by decide) (by decide) (JVal.obj [])]

theorem normalize_item_eq_of_scrubbed {a a' : JVal}
    (hnd : ((asObj a).map Prod.fst).Nodup)
    (h : scrubbed a = scrubbed a') : normalize_item a = normalize_item a' := by
  unfold normalize_item
  rw [normSteps_eq_of_scrub (scrubMap_dropIgnored h) (nodup_keys_dropIgnored hnd)]

/-- C7 (amended): two records with unique keys that differ only in the five
store-managed metadata keys and/or in the value — or the presence within a
retained `fields` list — of the `sync_id` custom field have the same
fingerprint and are indistinguishable to `differs` against every record.
(If removing the `sync_id` field also removes the record's only `fields`
list, normalization distinguishes the two: see the counterexample.) -/
theorem c7_ignored_invariance (a a' : JVal)
    (hnd : ((asObj a).map Prod.fst).Nodup)
    (h : scrubbed a = scrubbed a') :
    compute_sync_id a = compute_sync_id a' ∧
      ∀ b, items_differ a b = items_differ a' b := by
  refine ⟨compute_sync_id_eq_of_scrubbed h, fun b => ?_⟩
  unfold items_differ
  rw [normalize_item_eq_of_scrubbed hnd h]

/-- C7 (counterexample): `onlySyncRec` and the empty record differ only in
the presence of the `sync_id` custom field (together with the `fields` list
that exists only to hold it).  Their fingerprints agree, but `differs`
separates them against the empty record: normalization strips the `sync_id`
entry yet keeps an empty `"fields": []` marker, which serializes differently
from a record with no `fields` key at all.  So the `sync_id` field's
presence does leak into the equality comparison. -/
theorem c7_counterexample :
    compute_sync_id onlySyncRec = compute_sync_id (JVal.obj []) ∧
      items_differ onlySyncRec (JVal.obj []) = true ∧
      items_differ (JVal.obj []) (JVal.obj []) = false :=
  ⟨rfl, by decide, by decide⟩

theorem c7_witness :
    compute_sync_id scrubA = compute_sync_id scrubA' ∧
      items_differ scrubA (JVal.obj [("name", .str "n")]) =
        items_differ scrubA' (JVal.obj [("name", .str "n")]) := by
  have h := c7_ignored_invariance scrubA scrubA' (by decide) (by decide)
  exact ⟨h.1, h.2 (JVal.obj [("name", .str "n")])⟩

/-! ## Claim C8: normalization is idempotent -/

theorem sortedInsert_eq_orderedInsert (le : α → α → Bool) (a : α)
    (l : List α) :
    sortedInsert le a l = List.orderedInsert (fun x y => le x y = true) a l := by
  induction l with
  | nil => rfl
  | cons b t ih =>
      unfold sortedInsert List.orderedInsert
      rcases h : le a b with _ | _ <;> simp [h, ih]

theorem sortBy_eq_insertionSort (le : α → α → Bool) (l : List α) :
    sortBy le l = List.insertionSort (fun x y => le x y = true) l := by
  induction l with
  | nil => rfl
  | cons b t ih =>
      rw [sortBy, List.insertionSort, ih, sortedInsert_eq_orderedInsert]

theorem sortBy_sorted (le : α → α → Bool)
    (htot : ∀ a b, le a b = true ∨ le b a = true)
    (htrans : ∀ a b c, le a b = true → le b c = true → le a c = true)
    (l : List α) :
    List.Sorted (fun x y => le x y = true) (sortBy le l) := by
  rw [sortBy_eq_insertionSort]
  haveI : IsTotal α (fun x y => le x y = true) := ⟨htot⟩
  haveI : IsTrans α (fun x y => le x y = true) := ⟨fun a b c => htrans a b c⟩
  exact List.sorted_insertionSort _ l

theorem sortBy_eq_self_of_sorted (le : α → α → Bool) {l : List α}
    (h : List.Sorted (fun x y => le x y = true) l) : sortBy le l = l := by
  rw [sortBy_eq_insertionSort]
  exact h.insertionSort_eq

theorem sortBy_perm (le : α → α → Bool) (l : List α) :
    List.Perm (sortBy le l) l := by
  rw [sortBy_eq_insertionSort]
  exact List.perm_insertionSort _ l

theorem charListLe_total : ∀ a b : List Char,
    charListLe a b = true ∨ charListLe b a = true
  | [], b => Or.inl rfl
  | a :: as, [] => Or.inr rfl
  | a :: as, b :: bs => by
      unfold charListLe
      by_cases h1 : a.toNat < b.toNat
      · left
        simp [h1]
      · by_cases h2 : b.toNat < a.toNat
        · right
          simp [h2]
        · rcases charListLe_total as bs with h | h
          · left
            simp [h1, h2, h]
          · right
            simp [h1, h2, h]

theorem charListLe_trans : ∀ a b c : List Char,
    charListLe a b = true → charListLe b c = true → charListLe a c = true
  | [], _, _ => by
      intro _ _
      rfl
  | a :: as, [], c => by
      intro h _
      simp [charListLe] at h
  | a :: as, b :: bs, [] => by
      intro _ h
      simp [charListLe] at h
  | a :: as, b :: bs, c :: cs => by
      intro h1 h2
      unfold charListLe at h1 h2 ⊢
      by_cases hab : a.toNat < b.toNat <;> by_cases hbc : b.toNat < c.toNat
      · simp [show a.toNat < c.toNat by omega]
      · by_cases hcb : c.toNat < b.toNat
        · rw [if_neg hbc, if_pos hcb] at h2
          simp at h2
        · have hbc' : b.toNat = c.toNat := by omega
          simp [show a.toNat < c.toNat by omega]
      · by_cases hba : b.toNat < a.toNat
        · rw [if_neg hab, if_pos hba] at h1
          simp at h1
        · have hab' : a.toNat = b.toNat := by omega
          simp [show a.toNat < c.toNat by omega]
      · by_cases hba : b.toNat < a.toNat
        · rw [if_neg hab, if_pos hba] at h1
          simp at h1
        · by_cases hcb : c.toNat < b.toNat
          · rw [if_neg hbc, if_pos hcb] at h2
            simp at h2
          · have hab' : a.toNat = b.toNat := by omega
            have hbc' : b.toNat = c.toNat := by omega
            rw [if_neg hab, if_neg hba] at h1
            rw [if_neg hbc, if_neg hcb] at h2
            rw [if_neg (by omega), if_neg (by omega)]
            exact charListLe_trans as bs cs h1 h2

theorem charListLe_antisymm : ∀ a b : List Char,
    charListLe a b = true → charListLe b a = true → a = b
  | [], [] => by
      intro _ _
      rfl
  | [], b :: bs => by
      intro _ h
      simp [charListLe] at h
  | a :: as, [] => by
      intro h _
      simp [charListLe] at h
  | a :: as, b :: bs => by
      intro h1 h2
      unfold charListLe at h1 h2
      by_cases hab : a.toNat < b.toNat
      · rw [if_neg (by omega), if_pos hab] at h2
        simp at h2
      · by_cases hba : b.toNat < a.toNat
        · rw [if_neg hab, if_pos hba] at h1
          simp at h1
        · rw [if_neg hab, if_neg hba] at h1
          rw [if_neg hba, if_neg hab] at h2
          have hchar : a = b := char_toNat_inj (by omega)
          rw [hchar, charListLe_antisymm as bs h1 h2]

theorem strLe_total (a b : String) : strLe a b = true ∨ strLe b a = true :=
  charListLe_total a.data b.data

theorem strLe_trans {a b c : String} (h1 : strLe a b = true)
    (h2 : strLe b c = true) : strLe a c = true :=
  charListLe_trans a.data b.data c.data h1 h2

theorem strLe_antisymm {a b : String} (h1 : strLe a b = true)
    (h2 : strLe b a = true) : a = b := by
  cases a with
  | mk da =>
      cases b with
      | mk db =>
          rw [charListLe_antisymm da db h1 h2]

theorem keyLeB_total (x y : Nat × Int × String) :
    keyLeB x y = true ∨ keyLeB y x = true := by
  obtain ⟨r1, i1, s1⟩ := x
  obtain ⟨r2, i2, s2⟩ := y
  simp only [keyLeB]
  by_cases ha : r1 < r2
  · left
    simp [ha]
  · by_cases hb : r2 < r1
    · right
      simp [hb]
    · by_cases hc : i1 < i2
      · left
        simp [ha, hb, hc]
      · by_cases hd : i2 < i1
        · right
          simp [ha, hb, hd]
        · rcases strLe_total s1 s2 with h | h
          · left
            simp [ha, hb, hc, hd, h]
          · right
            simp [ha, hb, hc, hd, h]

theorem keyLeB_trans {x y z : Nat × Int × String} (h1 : keyLeB x y = true)
    (h2 : keyLeB y z = true) : keyLeB x z = true := by
  obtain ⟨r1, i1, s1⟩ := x
  obtain ⟨r2, i2, s2⟩ := y
  obtain ⟨r3, i3, s3⟩ := z
  simp only [keyLeB] at h1 h2 ⊢
  by_cases ha : r1 < r2
  · by_cases hb : r2 < r3
    · simp [show r1 < r3 by omega]
    · rw [if_neg hb] at h2
      by_cases hb' : r3 < r2
      · rw [if_pos hb'] at h2
        simp at h2
      · rw [if_neg hb'] at h2
        simp [show r1 < r3 by omega]
  · rw [if_neg ha] at h1
    by_cases ha' : r2 < r1
    · rw [if_pos ha'] at h1
      simp at h1
    · rw [if_neg ha'] at h1
      by_cases hb : r2 < r3
      · simp [show r1 < r3 by omega]
      · rw [if_neg hb] at h2
        by_cases hb' : r3 < r2
        · rw [if_pos hb'] at h2
          simp at h2
        · rw [if_neg hb'] at h2
          rw [if_neg (by omega), if_neg (by omega)]
          by_cases hc : i1 < i2
          · by_cases hd : i2 < i3
            · simp [show i1 < i3 by omega]
            · rw [if_neg hd] at h2
              by_cases hd' : i3 < i2
              · rw [if_pos hd'] at h2
                simp at h2
              · rw [if_neg hd'] at h2
                simp [show i1 < i3 by omega]
          · rw [if_neg hc] at h1
            by_cases hc' : i2 < i1
            · rw [if_pos hc'] at h1
              simp at h1
            · rw [if_neg hc'] at h1
              by_cases hd : i2 < i3
              · simp [show i1 < i3 by omega]
              · rw [if_neg hd] at h2
                by_cases hd' : i3 < i2
                · rw [if_pos hd'] at h2
                  simp at h2
                · rw [if_neg hd'] at h2
                  rw [if_neg (by omega), if_neg (by omega)]
                  exact strLe_trans h1 h2

theorem keyLeB_antisymm {x y : Nat × Int × String} (h1 : keyLeB x y = true)
    (h2 : keyLeB y x = true) : x = y := by
  obtain ⟨r1, i1, s1⟩ := x
  obtain ⟨r2, i2, s2⟩ := y
  simp only [keyLeB] at h1 h2
  by_cases ha : r1 < r2
  · rw [if_neg (by omega), if_pos ha] at h2
    simp at h2
  · by_cases ha' : r2 < r1
    · rw [if_neg ha, if_pos ha'] at h1
      simp at h1
    · rw [if_neg ha, if_neg ha'] at h1
      rw [if_neg ha', if_neg ha] at h2
      by_cases hc : i1 < i2
      · rw [if_neg (by omega), if_pos hc] at h2
        simp at h2
      · by_cases hc' : i2 < i1
        · rw [if_neg hc, if_pos hc'] at h1
          simp at h1
        · rw [if_neg hc, if_neg hc'] at h1
          rw [if_neg hc', if_neg hc] at h2
          have : s1 = s2 := strLe_antisymm h1 h2
          have hr : r1 = r2 := by omega
          have hi : i1 = i2 := by omega
          rw [hr, hi, this]

theorem uriLeB_total (u v : JVal) : uriLeB u v = true ∨ uriLeB v u = true := by
  simp only [uriLeB]
  by_cases h : jkey (recGetD u "uri" .null) = jkey (recGetD v "uri" .null)
  · rw [if_pos h, if_pos h.symm]
    exact keyLeB_total _ _
  · rw [if_neg h, if_neg (fun he => h he.symm)]
    exact keyLeB_total _ _

theorem uriLeB_trans {u v w : JVal} (h1 : uriLeB u v = true)
    (h2 : uriLeB v w = true) : uriLeB u w = true := by
  simp only [uriLeB] at h1 h2 ⊢
  by_cases huv : jkey (recGetD u "uri" .null) = jkey (recGetD v "uri" .null) <;>
    by_cases hvw : jkey (recGetD v "uri" .null) = jkey (recGetD w "uri" .null)
  · rw [if_pos huv] at h1
    rw [if_pos hvw] at h2
    rw [if_pos (huv.trans hvw)]
    exact keyLeB_trans h1 h2
  · rw [if_pos huv] at h1
    rw [if_neg hvw] at h2
    rw [if_neg (fun he => hvw (huv ▸ he)), huv]
    exact h2
  · rw [if_neg huv] at h1
    rw [if_pos hvw] at h2
    rw [if_neg (fun he => huv (hvw ▸ he)), ← hvw]
    exact h1
  · rw [if_neg huv] at h1
    rw [if_neg hvw] at h2
    have hne : jkey (recGetD u "uri" .null) ≠ jkey (recGetD w "uri" .null) := by
      intro he
      exact huv (keyLeB_antisymm h1 (he ▸ h2))
    rw [if_neg hne]
    exact keyLeB_trans h1 h2

theorem fieldLeB_total (u v : JVal) :
    fieldLeB u v = true ∨ fieldLeB v u = true := keyLeB_total _ _

theorem fieldLeB_trans {u v w : JVal} (h1 : fieldLeB u v = true)
    (h2 : fieldLeB v w = true) : fieldLeB u w = true := keyLeB_trans h1 h2

/-- `normalize_values` preserves the Python sort keys of `item.get(...)`
lookups: a present value keeps its key by `jkey_normalizeValues`, an absent
one falls back to the same default. -/
theorem jkey_recGetD_nv (x : JVal) (k : String) (d : JVal) :
    jkey (recGetD (normalizeValues x) k d) = jkey (recGetD x k d) := by
  cases x with
  | obj kvs =>
      show jkey (recGetD (.obj (normalizeValuesObj kvs)) k d) = _
      unfold recGetD asObj
      rw [objGet_normalizeValuesObj]
      rcases h : objGet kvs k with _ | v
      · simp
      · simp [jkey_normalizeValues]
  | null => rfl
  | bool b => rfl
  | num n => rfl
  | str s => rfl
  | arr xs => rfl

theorem uriLeB_nv (u v : JVal) :
    uriLeB (normalizeValues u) (normalizeValues v) = uriLeB u v := by
  simp only [uriLeB, jkey_recGetD_nv]

theorem fieldLeB_nv (u v : JVal) :
    fieldLeB (normalizeValues u) (normalizeValues v) = fieldLeB u v := by
  simp only [fieldLeB, jkey_recGetD_nv]

theorem mem_keys_of_objGet {kvs : List (String × JVal)} {k : String} {v : JVal}
    (h : objGet kvs k = some v) : k ∈ kvs.map Prod.fst := by
  by_contra hk
  rw [← objGet_eq_none kvs k] at hk
  rw [h] at hk
  exact Option.noConfusion hk

/-- `normalize_values` never produces a `null` at an existing object key, so
`"value" is None` is false on the final output. -/
theorem nv_value_ne_null (kvs : List (String × JVal)) (k : String) :
    objGet (normalizeValuesObj kvs) k ≠ some .null := by
  rw [objGet_normalizeValuesObj]
  rcases h : objGet kvs k with _ | v
  · simp
  · simp only [Option.map_some']
    intro he
    exact normalizeValues_ne_null v (Option.some.inj he)

theorem coerceNullValue_nv (t : JVal) :
    coerceNullValue (normalizeValues t) = normalizeValues t := by
  cases t with
  | obj kvs =>
      show coerceNullValue (.obj (normalizeValuesObj kvs)) = _
      unfold coerceNullValue
      dsimp only
      rw [if_neg (nv_value_ne_null kvs "value")]
      rfl
  | null => rfl
  | bool b => rfl
  | num n => rfl
  | str s => rfl
  | arr xs => rfl

theorem fieldNameIsSync_nv (t : JVal) :
    fieldNameIsSync (normalizeValues t) = fieldNameIsSync t := by
  cases t with
  | obj kvs =>
      show fieldNameIsSync (.obj (normalizeValuesObj kvs)) = _
      unfold fieldNameIsSync recGetD asObj
      rw [objGet_normalizeValuesObj]
      rcases h : objGet kvs "name" with _ | v
      · rfl
      · cases v <;> simp [normalizeValues, SYNC_FIELD]
  | null => rfl
  | bool b => rfl
  | num n => rfl
  | str s => rfl
  | arr xs => rfl

theorem fieldNameIsSync_coerce (t : JVal) :
    fieldNameIsSync (coerceNullValue t) = fieldNameIsSync t := by
  cases t with
  | obj kvs =>
      unfold coerceNullValue
      dsimp only
      by_cases h : objGet kvs "value" = some JVal.null
      · rw [if_pos h]
        unfold fieldNameIsSync recGetD asObj
        rw [objGet_objSet_ne kvs _ (show ("name" : String) ≠ "value" by decide)]
      · rw [if_neg h]
  | null => rfl
  | bool b => rfl
  | num n => rfl
  | str s => rfl
  | arr xs => rfl

/-- A rebuilt URI entry, after the deep `None` coercion, is a fixed point of
the rebuild: the uri is already stripped-lowercased, and `match`/`port` are
present, so the defaults never fire. -/
theorem normUri_nv_normUri (u : JVal) :
    normUri (normalizeValues (normUri u)) = normalizeValues (normUri u) := by
  show normUri (.obj (normalizeValuesObj
      [("uri", .str (stripLower (recGetD u "uri" .null))),
       ("match", recGetD u "match" (.num 0)),
       ("port", recGetD u "port" .null)])) = _
  simp [normUri, normalizeValues, normalizeValuesObj, recGetD, asObj, objGet,
    stripLower_stripLower]

theorem mem_sortBy {le : α → α → Bool} {l : List α} {x : α}
    (h : x ∈ sortBy le l) : x ∈ l := (sortBy_perm le l).mem_iff.mp h

theorem sorted_nvArr (le : JVal → JVal → Bool)
    (hle : ∀ a b, le (normalizeValues a) (normalizeValues b) = le a b)
    {l : List JVal} (h : List.Sorted (fun x y => le x y = true) l) :
    List.Sorted (fun x y => le x y = true) (normalizeValuesArr l) := by
  rw [normalizeValuesArr_eq_map]
  unfold List.Sorted at h ⊢
  rw [List.pairwise_map]
  exact h.imp (fun hab => by rw [hle]; exact hab)

theorem keys_filterNot_contains (bad : List String)
    (l : List (String × JVal)) :
    ∀ k ∈ (l.filter (fun kv => !(bad.contains kv.1))).map Prod.fst,
      bad.contains k = false := by
  intro k hk
  rw [List.mem_map] at hk
  obtain ⟨kv, hkv, hfst⟩ := hk
  rw [List.mem_filter] at hkv
  rw [← hfst]
  simpa using hkv.2

theorem filterNot_contains_eq_self (bad : List String)
    {l : List (String × JVal)}
    (h : ∀ k ∈ l.map Prod.fst, bad.contains k = false) :
    l.filter (fun kv => !(bad.contains kv.1)) = l := by
  apply List.filter_eq_self.mpr
  intro kv hkv
  have hc := h kv.1 (List.mem_map_of_mem Prod.fst hkv)
  simp only [Bool.not_eq_true']
  exact hc

theorem keys_normLoginStep (m : List (String × JVal)) :
    (normLoginStep m).map Prod.fst = m.map Prod.fst := by
  unfold normLoginStep
  rcases hget : objGet m "login" with _ | w
  · rfl
  · cases w with
    | obj lg => exact keys_objSet_of_has (mem_keys_of_objGet hget) _
    | null => rfl
    | bool b => rfl
    | num n => rfl
    | str s => rfl
    | arr xs => rfl

theorem keys_normFieldsStep (m : List (String × JVal)) :
    (normFieldsStep m).map Prod.fst = m.map Prod.fst := by
  unfold normFieldsStep
  rcases hget : objGet m "fields" with _ | w
  · rfl
  · cases w with
    | arr fs => exact keys_objSet_of_has (mem_keys_of_objGet hget) _
    | null => rfl
    | bool b => rfl
    | num n => rfl
    | str s => rfl
    | obj kvs => rfl

theorem keys_normNotesStep_sub (m : List (String × JVal)) :
    ∀ k ∈ (normNotesStep m).map Prod.fst,
      k ∈ m.map Prod.fst ∨ k = "notes" := by
  unfold normNotesStep
  rcases hget : objGet m "notes" with _ | w
  · exact keys_objSet_sub m "notes" _
  · cases w with
    | null => exact keys_objSet_sub m "notes" _
    | bool b => exact fun k hk => Or.inl hk
    | num n => exact fun k hk => Or.inl hk
    | str s => exact fun k hk => Or.inl hk
    | arr xs => exact fun k hk => Or.inl hk
    | obj kvs => exact fun k hk => Or.inl hk

/-- Every key surviving to the output of `_normalize_item` is non-ignored:
the first pass filtered the ignored keys out and the later steps only touch
`login`, `fields`, `notes`. -/
theorem keys_normalize_not_ignored (r : JVal) :
    ∀ k ∈ (normalizeValuesObj (normNotesStep (normFieldsStep (normLoginStep
      (dropIgnored (asObj r)))))).map Prod.fst,
      IGNORED_FIELDS.contains k = false := by
  intro k hk
  rw [keys_normalizeValuesObj] at hk
  rcases keys_normNotesStep_sub _ k hk with hk' | hk'
  · rw [keys_normFieldsStep, keys_normLoginStep] at hk'
    exact keys_filterNot_contains IGNORED_FIELDS (asObj r) k hk'
  · rw [hk']
    decide

theorem map_eq_self_of_fixed {f : α → α} {l : List α}
    (h : ∀ x ∈ l, f x = x) : l.map f = l := by
  induction l with
  | nil => rfl
  | cons a t ih =>
      rw [List.map_cons, h a (List.mem_cons_self a t),
        ih (fun x hx => h x (List.mem_cons_of_mem _ hx))]

theorem filterMap_normUri_fixed {l : List JVal}
    (h : ∀ x ∈ l, (∃ kvs, x = JVal.obj kvs) ∧ normUri x = x) :
    l.filterMap (fun u => match u with
      | JVal.obj _ => some (normUri u)
      | _ => none) = l := by
  induction l with
  | nil => rfl
  | cons x xs ih =>
      obtain ⟨⟨kvs, hx⟩, hfix⟩ := h x (List.mem_cons_self x xs)
      subst hx
      rw [List.filterMap_cons]
      dsimp only
      rw [hfix, ih (fun y hy => h y (List.mem_cons_of_mem _ hy))]

/-- Unfolding of the login step when the login value is a dict. -/
theorem normLoginStep_obj {m lg : List (String × JVal)}
    (h : objGet m "login" = some (.obj lg)) :
    normLoginStep m =
      objSet m "login" (.obj
        (match objGet (lg.filter (fun kv =>
            !(VOLATILE_LOGIN_KEYS.contains kv.1))) "uris" with
         | some (.arr us) =>
             objSet (lg.filter (fun kv =>
               !(VOLATILE_LOGIN_KEYS.contains kv.1))) "uris"
               (.arr (sortBy uriLeB (us.filterMap (fun u =>
                 match u with
                 | JVal.obj _ => some (normUri u)
                 | _ => none))))
         | _ => lg.filter (fun kv => !(VOLATILE_LOGIN_KEYS.contains kv.1)))) := by
  unfold normLoginStep
  rw [h]

/-- If the login value is a dict with no volatile keys whose `uris` entry, if
a list, already consists of fixed rebuilt dict entries in sorted order, the
login step is the identity. -/
theorem normLoginStep_eq_self {m : List (String × JVal)}
    (h : ∀ lg, objGet m "login" = some (.obj lg) →
      (∀ k ∈ lg.map Prod.fst, VOLATILE_LOGIN_KEYS.contains k = false) ∧
      ∀ us, objGet lg "uris" = some (.arr us) →
        (∀ x ∈ us, (∃ kvs, x = JVal.obj kvs) ∧ normUri x = x) ∧
        List.Sorted (fun x y => uriLeB x y = true) us) :
    normLoginStep m = m := by
  rcases hget : objGet m "login" with _ | w
  · unfold normLoginStep
    rw [hget]
  · cases w with
    | obj lg =>
        obtain ⟨hvol, huris⟩ := h lg hget
        rw [normLoginStep_obj hget]
        rw [filterNot_contains_eq_self VOLATILE_LOGIN_KEYS hvol]
        rcases hu : objGet lg "uris" with _ | v
        · exact objSet_objGet_self hget
        · cases v with
          | arr us =>
              obtain ⟨hobj, hsort⟩ := huris us hu
              dsimp only
              rw [filterMap_normUri_fixed hobj,
                sortBy_eq_self_of_sorted uriLeB hsort,
                objSet_objGet_self hu]
              exact objSet_objGet_self hget
          | null => exact objSet_objGet_self hget
          | bool b => exact objSet_objGet_self hget
          | num n => exact objSet_objGet_self hget
          | str s => exact objSet_objGet_self hget
          | obj kvs => exact objSet_objGet_self hget
    | null =>
        unfold normLoginStep
        rw [hget]
    | bool b =>
        unfold normLoginStep
        rw [hget]
    | num n =>
        unfold normLoginStep
        rw [hget]
    | str s =>
        unfold normLoginStep
        rw [hget]
    | arr xs =>
        unfold normLoginStep
        rw [hget]

/-- Unfolding of the fields step when the fields value is a list. -/
theorem normFieldsStep_arr {m : List (String × JVal)} {fs : List JVal}
    (h : objGet m "fields" = some (.arr fs)) :
    normFieldsStep m = objSet m "fields"
      (.arr (sortBy fieldLeB ((fs.filter (fun f =>
        !(fieldNameIsSync f))).map coerceNullValue))) := by
  unfold normFieldsStep
  rw [h]

/-- If the fields value is a list of fixed, non-sync entries in sorted order,
the fields step is the identity. -/
theorem normFieldsStep_eq_self {m : List (String × JVal)}
    (h : ∀ fs, objGet m "fields" = some (.arr fs) →
      (∀ x ∈ fs, fieldNameIsSync x = false ∧ coerceNullValue x = x) ∧
      List.Sorted (fun x y => fieldLeB x y = true) fs) :
    normFieldsStep m = m := by
  rcases hget : objGet m "fields" with _ | w
  · unfold normFieldsStep
    rw [hget]
  · cases w with
    | arr fs =>
        obtain ⟨hfix, hsort⟩ := h fs hget
        rw [normFieldsStep_arr hget]
        have hfil : fs.filter (fun f => !(fieldNameIsSync f)) = fs :=
          List.filter_eq_self.mpr (fun x hx => by
            rw [(hfix x hx).1]
            rfl)
        rw [hfil, map_eq_self_of_fixed (fun x hx => (hfix x hx).2),
          sortBy_eq_self_of_sorted fieldLeB hsort]
        exact objSet_objGet_self hget
    | null =>
        unfold normFieldsStep
        rw [hget]
    | bool b =>
        unfold normFieldsStep
        rw [hget]
    | num n =>
        unfold normFieldsStep
        rw [hget]
    | str s =>
        unfold normFieldsStep
        rw [hget]
    | obj kvs =>
        unfold normFieldsStep
        rw [hget]

/-- If the notes value is present and non-null, the notes step is the
identity. -/
theorem normNotesStep_eq_self {m : List (String × JVal)} {w : JVal}
    (h : objGet m "notes" = some w) (hw : w ≠ JVal.null) :
    normNotesStep m = m := by
  unfold normNotesStep
  rw [h]
  cases w with
  | null => exact absurd rfl hw
  | bool b => rfl
  | num n => rfl
  | str s => rfl
  | arr xs => rfl
  | obj kvs => rfl

/-- After the notes step, a non-null notes value is always present. -/
theorem objGet_normNotesStep_notes (m : List (String × JVal)) :
    ∃ w, objGet (normNotesStep m) "notes" = some w ∧ w ≠ JVal.null := by
  unfold normNotesStep
  rcases hget : objGet m "notes" with _ | w
  · exact ⟨.str "", objGet_objSet_self m "notes" _, fun h => JVal.noConfusion h⟩
  · cases w with
    | null => exact ⟨.str "", objGet_objSet_self m "notes" _,
        fun h => JVal.noConfusion h⟩
    | bool b => exact ⟨.bool b, hget, fun h => JVal.noConfusion h⟩
    | num n => exact ⟨.num n, hget, fun h => JVal.noConfusion h⟩
    | str s => exact ⟨.str s, hget, fun h => JVal.noConfusion h⟩
    | arr xs => exact ⟨.arr xs, hget, fun h => JVal.noConfusion h⟩
    | obj kvs => exact ⟨.obj kvs, hget, fun h => JVal.noConfusion h⟩

/-- The login step is the identity on the output of `_normalize_item`: the
volatile keys are already gone, the URIs are already rebuilt and sorted, and
the deep `None` coercion preserves all of that. -/
theorem normLoginStep_pass2 (r : JVal) :
    normLoginStep (normalizeValuesObj (normNotesStep (normFieldsStep
      (normLoginStep (dropIgnored (asObj r)))))) =
    normalizeValuesObj (normNotesStep (normFieldsStep (normLoginStep
      (dropIgnored (asObj r))))) := by
  apply normLoginStep_eq_self
  intro lg hlg
  rw [objGet_normalizeValuesObj,
    objGet_normNotesStep (show ("login" : String) ≠ "notes" by decide),
    objGet_normFieldsStep (show ("login" : String) ≠ "fields" by decide)] at hlg
  rcases hD : objGet (dropIgnored (asObj r)) "login" with _ | w
  · have hL : normLoginStep (dropIgnored (asObj r)) =
        dropIgnored (asObj r) := by
      unfold normLoginStep
      rw [hD]
    rw [hL, hD] at hlg
    exact Option.noConfusion hlg
  · cases w with
    | obj lg0 =>
        rw [normLoginStep_obj hD, objGet_objSet_self,
          Option.map_some'] at hlg
        have hlg' := JVal.obj.inj (Option.some.inj hlg)
        subst hlg'
        rcases hu : objGet (lg0.filter (fun kv =>
            !(VOLATILE_LOGIN_KEYS.contains kv.1))) "uris" with _ | v
        · dsimp only
          constructor
          · intro k hk
            rw [keys_normalizeValuesObj] at hk
            exact keys_filterNot_contains VOLATILE_LOGIN_KEYS lg0 k hk
          · intro us hus
            rw [objGet_normalizeValuesObj, hu] at hus
            exact Option.noConfusion hus
        · cases v with
          | arr us0 =>
              dsimp only
              constructor
              · intro k hk
                rw [keys_normalizeValuesObj,
                  keys_objSet_of_has (mem_keys_of_objGet hu)] at hk
                exact keys_filterNot_contains VOLATILE_LOGIN_KEYS lg0 k hk
              · intro us hus
                rw [objGet_normalizeValuesObj, objGet_objSet_self,
                  Option.map_some'] at hus
                have hus' := JVal.arr.inj (Option.some.inj hus)
                subst hus'
                constructor
                · intro x hx
                  rw [normalizeValuesArr_eq_map, List.mem_map] at hx
                  obtain ⟨y, hy, rfl⟩ := hx
                  have hy' := mem_sortBy hy
                  rw [List.mem_filterMap] at hy'
                  obtain ⟨u, hu', hfu⟩ := hy'
                  cases u with
                  | obj kvs =>
                      have hyu : normUri (JVal.obj kvs) = y :=
                        Option.some.inj hfu
                      subst hyu
                      exact ⟨⟨_, rfl⟩, normUri_nv_normUri (JVal.obj kvs)⟩
                  | null => exact Option.noConfusion hfu
                  | bool b => exact Option.noConfusion hfu
                  | num n => exact Option.noConfusion hfu
                  | str s => exact Option.noConfusion hfu
                  | arr xs => exact Option.noConfusion hfu
                · exact sorted_nvArr uriLeB uriLeB_nv
                    (sortBy_sorted uriLeB uriLeB_total
                      (fun a b c h1 h2 => uriLeB_trans h1 h2) _)
          | null =>
              dsimp only
              constructor
              · intro k hk
                rw [keys_normalizeValuesObj] at hk
                exact keys_filterNot_contains VOLATILE_LOGIN_KEYS lg0 k hk
              · intro us hus
                rw [objGet_normalizeValuesObj, hu] at hus
                simp [normalizeValues] at hus
          | bool b =>
              dsimp only
              constructor
              · intro k hk
                rw [keys_normalizeValuesObj] at hk
                exact keys_filterNot_contains VOLATILE_LOGIN_KEYS lg0 k hk
              · intro us hus
                rw [objGet_normalizeValuesObj, hu] at hus
                simp [normalizeValues] at hus
          | num n =>
              dsimp only
              constructor
              · intro k hk
                rw [keys_normalizeValuesObj] at hk
                exact keys_filterNot_contains VOLATILE_LOGIN_KEYS lg0 k hk
              · intro us hus
                rw [objGet_normalizeValuesObj, hu] at hus
                simp [normalizeValues] at hus
          | str s =>
              dsimp only
              constructor
              · intro k hk
                rw [keys_normalizeValuesObj] at hk
                exact keys_filterNot_contains VOLATILE_LOGIN_KEYS lg0 k hk
              · intro us hus
                rw [objGet_normalizeValuesObj, hu] at hus
                simp [normalizeValues] at hus
          | obj kvs =>
              dsimp only
              constructor
              · intro k hk
                rw [keys_normalizeValuesObj] at hk
                exact keys_filterNot_contains VOLATILE_LOGIN_KEYS lg0 k hk
              · intro us hus
                rw [objGet_normalizeValuesObj, hu] at hus
                simp [normalizeValues] at hus
    | null =>
        have hL : normLoginStep (dropIgnored (asObj r)) =
            dropIgnored (asObj r) := by
          unfold normLoginStep
          rw [hD]
        rw [hL, hD] at hlg
        simp [normalizeValues] at hlg
    | bool b =>
        have hL : normLoginStep (dropIgnored (asObj r)) =
            dropIgnored (asObj r) := by
          unfold normLoginStep
          rw [hD]
        rw [hL, hD] at hlg
        simp [normalizeValues] at hlg
    | num n =>
        have hL : normLoginStep (dropIgnored (asObj r)) =
            dropIgnored (asObj r) := by
          unfold normLoginStep
          rw [hD]
        rw [hL, hD] at hlg
        simp [normalizeValues] at hlg
    | str s =>
        have hL : normLoginStep (dropIgnored (asObj r)) =
            dropIgnored (asObj r) := by
          unfold normLoginStep
          rw [hD]
        rw [hL, hD] at hlg
        simp [normalizeValues] at hlg
    | arr xs =>
        have hL : normLoginStep (dropIgnored (asObj r)) =
            dropIgnored (asObj r) := by
          unfold normLoginStep
          rw [hD]
        rw [hL, hD] at hlg
        simp [normalizeValues] at hlg

/-- The fields step is the identity on the output of `_normalize_item`. -/
theorem normFieldsStep_pass2 (r : JVal) :
    normFieldsStep (normalizeValuesObj (normNotesStep (normFieldsStep
      (normLoginStep (dropIgnored (asObj r)))))) =
    normalizeValuesObj (normNotesStep (normFieldsStep (normLoginStep
      (dropIgnored (asObj r))))) := by
  apply normFieldsStep_eq_self
  intro fs hfs
  rw [objGet_normalizeValuesObj,
    objGet_normNotesStep (show ("fields" : String) ≠ "notes" by decide)] at hfs
  rcases hL : objGet (normLoginStep (dropIgnored (asObj r))) "fields"
    with _ | w
  · have hF : normFieldsStep (normLoginStep (dropIgnored (asObj r))) =
        normLoginStep (dropIgnored (asObj r)) := by
      unfold normFieldsStep
      rw [hL]
    rw [hF, hL] at hfs
    exact Option.noConfusion hfs
  · cases w with
    | arr fs0 =>
        rw [normFieldsStep_arr hL, objGet_objSet_self,
          Option.map_some'] at hfs
        have hfs' := JVal.arr.inj (Option.some.inj hfs)
        subst hfs'
        constructor
        · intro x hx
          rw [normalizeValuesArr_eq_map, List.mem_map] at hx
          obtain ⟨y, hy, rfl⟩ := hx
          have hy' := mem_sortBy hy
          rw [List.mem_map] at hy'
          obtain ⟨f, hf, rfl⟩ := hy'
          rw [List.mem_filter] at hf
          constructor
          · rw [fieldNameIsSync_nv, fieldNameIsSync_coerce]
            simpa using hf.2
          · exact coerceNullValue_nv (coerceNullValue f)
        · exact sorted_nvArr fieldLeB fieldLeB_nv
            (sortBy_sorted fieldLeB fieldLeB_total
              (fun a b c h1 h2 => fieldLeB_trans h1 h2) _)
    | null =>
        have hF : normFieldsStep (normLoginStep (dropIgnored (asObj r))) =
            normLoginStep (dropIgnored (asObj r)) := by
          unfold normFieldsStep
          rw [hL]
        rw [hF, hL] at hfs
        simp [normalizeValues] at hfs
    | bool b =>
        have hF : normFieldsStep (normLoginStep (dropIgnored (asObj r))) =
            normLoginStep (dropIgnored (asObj r)) := by
          unfold normFieldsStep
          rw [hL]
        rw [hF, hL] at hfs
        simp [normalizeValues] at hfs
    | num n =>
        have hF : normFieldsStep (normLoginStep (dropIgnored (asObj r))) =
            normLoginStep (dropIgnored (asObj r)) := by
          unfold normFieldsStep
          rw [hL]
        rw [hF, hL] at hfs
        simp [normalizeValues] at hfs
    | str s =>
        have hF : normFieldsStep (normLoginStep (dropIgnored (asObj r))) =
            normLoginStep (dropIgnored (asObj r)) := by
          unfold normFieldsStep
          rw [hL]
        rw [hF, hL] at hfs
        simp [normalizeValues] at hfs
    | obj kvs =>
        have hF : normFieldsStep (normLoginStep (dropIgnored (asObj r))) =
            normLoginStep (dropIgnored (asObj r)) := by
          unfold normFieldsStep
          rw [hL]
        rw [hF, hL] at hfs
        simp [normalizeValues] at hfs

/-- The notes step is the identity on the output of `_normalize_item`. -/
theorem normNotesStep_pass2 (r : JVal) :
    normNotesStep (normalizeValuesObj (normNotesStep (normFieldsStep
      (normLoginStep (dropIgnored (asObj r)))))) =
    normalizeValuesObj (normNotesStep (normFieldsStep (normLoginStep
      (dropIgnored (asObj r))))) := by
  obtain ⟨w, hw, hnn⟩ := objGet_normNotesStep_notes
    (normFieldsStep (normLoginStep (dropIgnored (asObj r))))
  exact normNotesStep_eq_self
    (by rw [objGet_normalizeValuesObj, hw, Option.map_some'])
    (normalizeValues_ne_null w)

theorem dropIgnored_eq_self {l : List (String × JVal)}
    (h : ∀ k ∈ l.map Prod.fst, IGNORED_FIELDS.contains k = false) :
    dropIgnored l = l := by
  unfold dropIgnored
  exact filterNot_contains_eq_self IGNORED_FIELDS h

/-- C8 (`_normalize_item` is idempotent): normalizing an already normalized
record changes nothing.  Every step of the second pass is the identity: the
ignored keys are gone, the login block has no volatile keys and a sorted list
of fixed rebuilt URI entries, the fields list is sorted with no `sync_id`
entries and no `None` values, notes is present and non-null, and the deep
`None` coercion is idempotent. -/
theorem c8_normalize_idempotent (r : JVal) :
    normalize_item (normalize_item r) = normalize_item r := by
  unfold normalize_item
  rw [show asObj (JVal.obj (normalizeValuesObj (normNotesStep (normFieldsStep
      (normLoginStep (dropIgnored (asObj r))))))) = normalizeValuesObj
      (normNotesStep (normFieldsStep (normLoginStep (dropIgnored (asObj r)))))
    from rfl]
  rw [dropIgnored_eq_self (keys_normalize_not_ignored r),
    normLoginStep_pass2 r, normFieldsStep_pass2 r, normNotesStep_pass2 r,
    normalizeValuesObj_idem]

/-! ## Claim C1: bucket partition of plan() -/

theorem objGet_eq_of_mem_nodup {m : List (String × JVal)} {k : String}
    {v : JVal} (hm : (k, v) ∈ m) (hnd : (m.map Prod.fst).Nodup) :
    objGet m k = some v := by
  induction m with
  | nil => cases hm
  | cons e rest ih =>
      obtain ⟨k0, v0⟩ := e
      rw [List.map_cons] at hnd
      rcases List.mem_cons.mp hm with he | he
      · obtain ⟨rfl, rfl⟩ := Prod.mk.injEq .. ▸ he
        rw [objGet, if_pos rfl]
      · by_cases hk : k0 = k
        · subst hk
          exact absurd (List.mem_map_of_mem Prod.fst he)
            (List.nodup_cons.mp hnd).1
        · rw [objGet, if_neg hk]
          exact ih he (List.nodup_cons.mp hnd).2

theorem objGet_foldl_of_not_mem (kf : JVal → String) (vf : JVal → JVal)
    (items : List JVal) (acc : List (String × JVal)) {k : String}
    (h : k ∉ items.map kf) :
    objGet (items.foldl (fun m y => objSet m (kf y) (vf y)) acc) k =
      objGet acc k := by
  induction items generalizing acc with
  | nil => rfl
  | cons y rest ih =>
      rw [List.map_cons] at h
      rw [List.foldl_cons,
        ih _ (fun hk => h (List.mem_cons_of_mem _ hk)),
        objGet_objSet_ne _ _ (fun hk => h (by rw [hk]; exact List.mem_cons_self _ _))]

/-- Each record of a duplicate-free batch keeps its own entry in the
fold-built map. -/
theorem objGet_foldl_objSet_mem (kf : JVal → String) (vf : JVal → JVal) :
    ∀ (items : List JVal) (acc : List (String × JVal)),
    (items.map kf).Nodup → ∀ {x : JVal}, x ∈ items →
    objGet (items.foldl (fun m y => objSet m (kf y) (vf y)) acc) (kf x) =
      some (vf x) := by
  intro items
  induction items with
  | nil =>
      intro acc hnd x hx
      cases hx
  | cons y rest ih =>
      intro acc hnd x hx
      rw [List.map_cons] at hnd
      rw [List.foldl_cons]
      rcases List.mem_cons.mp hx with rfl | hx1
      · rw [objGet_foldl_of_not_mem _ _ _ _ (List.nodup_cons.mp hnd).1]
        exact objGet_objSet_self acc (kf x) (vf x)
      · exact ih _ (List.nodup_cons.mp hnd).2 hx1

theorem exactMatch_cons_none {M rest : List (String × JVal)} {sid0 : String}
    {s0 : JVal} (h : objGet M sid0 = none) :
    exactMatch ((sid0, s0) :: rest) M =
      ((exactMatch rest M).1, s0 :: (exactMatch rest M).2) := by
  rw [exactMatch, h]

theorem exactMatch_cons_truthy {M rest : List (String × JVal)} {sid0 : String}
    {s0 d : JVal} (h : objGet M sid0 = some d) (ht : pyTruthy d = true) :
    exactMatch ((sid0, s0) :: rest) M =
      ((s0, d) :: (exactMatch rest M).1, (exactMatch rest M).2) := by
  rw [exactMatch, h]
  rcases exactMatch rest M with ⟨mp, tc⟩
  dsimp only
  rw [if_pos ht]

theorem exactMatch_cons_falsy {M rest : List (String × JVal)} {sid0 : String}
    {s0 d : JVal} (h : objGet M sid0 = some d) (ht : pyTruthy d = false) :
    exactMatch ((sid0, s0) :: rest) M =
      ((exactMatch rest M).1, s0 :: (exactMatch rest M).2) := by
  rw [exactMatch, h]
  rcases exactMatch rest M with ⟨mp, tc⟩
  dsimp only
  rw [if_neg (by rw [ht]; exact fun hc => Bool.noConfusion hc)]

theorem exactMatch_pairs_mem {M : List (String × JVal)} {p : JVal × JVal} :
    ∀ {m : List (String × JVal)},
    (p ∈ (exactMatch m M).1 ↔
      ∃ sid, (sid, p.1) ∈ m ∧ objGet M sid = some p.2 ∧
        pyTruthy p.2 = true) := by
  intro m
  induction m with
  | nil =>
      constructor
      · intro h
        cases h
      · rintro ⟨sid, hm, _⟩
        cases hm
  | cons e rest ih =>
      obtain ⟨sid0, s0⟩ := e
      rcases hget : objGet M sid0 with _ | d0
      · rw [exactMatch_cons_none hget]
        dsimp only
        constructor
        · intro h
          obtain ⟨sid, hm, hg, ht⟩ := ih.mp h
          exact ⟨sid, List.mem_cons_of_mem _ hm, hg, ht⟩
        · rintro ⟨sid, hm, hg, ht⟩
          rcases List.mem_cons.mp hm with he | he
          · obtain ⟨rfl, rfl⟩ := Prod.mk.injEq .. ▸ he
            rw [hget] at hg
            exact Option.noConfusion hg
          · exact ih.mpr ⟨sid, he, hg, ht⟩
      · by_cases htr : pyTruthy d0 = true
        · rw [exactMatch_cons_truthy hget htr]
          dsimp only
          constructor
          · intro h
            rcases List.mem_cons.mp h with rfl | h1
            · exact ⟨sid0, List.mem_cons_self _ _, hget, htr⟩
            · obtain ⟨sid, hm, hg, ht⟩ := ih.mp h1
              exact ⟨sid, List.mem_cons_of_mem _ hm, hg, ht⟩
          · rintro ⟨sid, hm, hg, ht⟩
            rcases List.mem_cons.mp hm with he | he
            · obtain ⟨rfl, rfl⟩ := Prod.mk.injEq .. ▸ he
              rw [hget] at hg
              obtain rfl := Option.some.inj hg
              rcases p with ⟨p1, p2⟩
              exact List.mem_cons_self _ _
            · exact List.mem_cons_of_mem _ (ih.mpr ⟨sid, he, hg, ht⟩)
        · rw [exactMatch_cons_falsy hget (Bool.not_eq_true _ ▸ htr)]
          dsimp only
          constructor
          · intro h
            obtain ⟨sid, hm, hg, ht⟩ := ih.mp h
            exact ⟨sid, List.mem_cons_of_mem _ hm, hg, ht⟩
          · rintro ⟨sid, hm, hg, ht⟩
            rcases List.mem_cons.mp hm with he | he
            · obtain ⟨rfl, rfl⟩ := Prod.mk.injEq .. ▸ he
              rw [hget] at hg
              obtain rfl := Option.some.inj hg
              exact absurd ht htr
            · exact ih.mpr ⟨sid, he, hg, ht⟩

theorem exactMatch_creates_mem {M : List (String × JVal)} {x : JVal} :
    ∀ {m : List (String × JVal)},
    (x ∈ (exactMatch m M).2 ↔
      ∃ sid, (sid, x) ∈ m ∧
        ∀ d, objGet M sid = some d → pyTruthy d = false) := by
  intro m
  induction m with
  | nil =>
      constructor
      · intro h
        cases h
      · rintro ⟨sid, hm, _⟩
        cases hm
  | cons e rest ih =>
      obtain ⟨sid0, s0⟩ := e
      rcases hget : objGet M sid0 with _ | d0
      · rw [exactMatch_cons_none hget]
        dsimp only
        constructor
        · intro h
          rcases List.mem_cons.mp h with rfl | h1
          · exact ⟨sid0, List.mem_cons_self _ _,
              fun d hd => absurd (hget ▸ hd)
                (fun he => Option.noConfusion he)⟩
          · obtain ⟨sid, hm, hall⟩ := ih.mp h1
            exact ⟨sid, List.mem_cons_of_mem _ hm, hall⟩
        · rintro ⟨sid, hm, hall⟩
          rcases List.mem_cons.mp hm with he | he
          · obtain ⟨rfl, rfl⟩ := Prod.mk.injEq .. ▸ he
            exact List.mem_cons_self _ _
          · exact List.mem_cons_of_mem _ (ih.mpr ⟨sid, he, hall⟩)
      · by_cases htr : pyTruthy d0 = true
        · rw [exactMatch_cons_truthy hget htr]
          dsimp only
          constructor
          · intro h
            obtain ⟨sid, hm, hall⟩ := ih.mp h
            exact ⟨sid, List.mem_cons_of_mem _ hm, hall⟩
          · rintro ⟨sid, hm, hall⟩
            rcases List.mem_cons.mp hm with he | he
            · obtain ⟨rfl, rfl⟩ := Prod.mk.injEq .. ▸ he
              rw [hall d0 hget] at htr
              exact Bool.noConfusion htr
            · exact ih.mpr ⟨sid, he, hall⟩
        · rw [exactMatch_cons_falsy hget (Bool.not_eq_true _ ▸ htr)]
          dsimp only
          constructor
          · intro h
            rcases List.mem_cons.mp h with rfl | h1
            · exact ⟨sid0, List.mem_cons_self _ _,
                fun d hd => by
                  rw [hget] at hd
                  obtain rfl := Option.some.inj hd
                  exact Bool.not_eq_true _ ▸ htr⟩
            · obtain ⟨sid, hm, hall⟩ := ih.mp h1
              exact ⟨sid, List.mem_cons_of_mem _ hm, hall⟩
          · rintro ⟨sid, hm, hall⟩
            rcases List.mem_cons.mp hm with he | he
            · obtain ⟨rfl, rfl⟩ := Prod.mk.injEq .. ▸ he
              exact List.mem_cons_self _ _
            · exact List.mem_cons_of_mem _ (ih.mpr ⟨sid, he, hall⟩)

theorem findDeletes_mem {m1 : List (String × JVal)} {d : JVal} :
    ∀ {m2 : List (String × JVal)},
    (d ∈ findDeletes m2 m1 ↔
      ∃ sid, (sid, d) ∈ m2 ∧ objHas m1 sid = false) := by
  intro m2
  induction m2 with
  | nil =>
      constructor
      · intro h
        cases h
      · rintro ⟨sid, hm, _⟩
        cases hm
  | cons e rest ih =>
      obtain ⟨sid0, d0⟩ := e
      rw [findDeletes]
      by_cases hh : objHas m1 sid0 = true
      · rw [if_pos hh]
        constructor
        · intro h
          obtain ⟨sid, hm, hhas⟩ := ih.mp h
          exact ⟨sid, List.mem_cons_of_mem _ hm, hhas⟩
        · rintro ⟨sid, hm, hhas⟩
          rcases List.mem_cons.mp hm with he | he
          · obtain ⟨rfl, rfl⟩ := Prod.mk.injEq .. ▸ he
            rw [hh] at hhas
            exact Bool.noConfusion hhas
          · exact ih.mpr ⟨sid, he, hhas⟩
      · rw [if_neg hh]
        constructor
        · intro h
          rcases List.mem_cons.mp h with rfl | h1
          · exact ⟨sid0, List.mem_cons_self _ _, Bool.not_eq_true _ ▸ hh⟩
          · obtain ⟨sid, hm, hhas⟩ := ih.mp h1
            exact ⟨sid, List.mem_cons_of_mem _ hm, hhas⟩
        · rintro ⟨sid, hm, hhas⟩
          rcases List.mem_cons.mp hm with he | he
          · obtain ⟨rfl, rfl⟩ := Prod.mk.injEq .. ▸ he
            exact List.mem_cons_self _ _
          · exact List.mem_cons_of_mem _ (ih.mpr ⟨sid, he, hhas⟩)

/-- Since every assigned sync id is non-empty, both unmatched lists are empty
and `plan()` is the exact phase alone. -/
theorem plan_eq_exactMatch (src_items dst_items : List JVal) :
    plan src_items dst_items =
      ((exactMatch
          (src_items.foldl (fun m s =>
            objSet m (assignSid s) (set_sync_id s (assignSid s))) [])
          (dst_items.foldl (fun m d => objSet m (assignSid d) d) [])).2,
       compareFilter (exactMatch
          (src_items.foldl (fun m s =>
            objSet m (assignSid s) (set_sync_id s (assignSid s))) [])
          (dst_items.foldl (fun m d => objSet m (assignSid d) d) [])).1,
       findDeletes
         (dst_items.foldl (fun m d => objSet m (assignSid d) d) [])
         (src_items.foldl (fun m s =>
           objSet m (assignSid s) (set_sync_id s (assignSid s))) [])) ∧
    planMatchedPairs src_items dst_items =
      (exactMatch
        (src_items.foldl (fun m s =>
          objSet m (assignSid s) (set_sync_id s (assignSid s))) [])
        (dst_items.foldl (fun m d => objSet m (assignSid d) d) [])).1 := by
  constructor
  · rw [plan, srcPhase_eq, dstPhase_eq]
    dsimp only
    rw [show match_unmatched [] [] = ([], [], []) from rfl]
    dsimp only
    rw [show compareFilter ([] : List (JVal × JVal)) = [] from rfl]
    rw [List.append_nil, List.append_nil, List.append_nil]
  · rw [planMatchedPairs, srcPhase_eq, dstPhase_eq]
    dsimp only
    rw [show match_unmatched [] [] = ([], [], []) from rfl]
    dsimp only
    rw [List.append_nil]

/-- C1 [amended]: when the assigned fingerprints are unique on each side and
every destination record is a non-empty dict, `plan()` partitions the
records: every (mutated) source record lands in exactly one of
matched-unchanged, `to_update`, `to_create`, and every destination record in
exactly one of matched-unchanged, `to_update`, `to_delete`.  (Without the
uniqueness hypothesis a record can be dropped, see the counterexample.) -/
theorem c1_partition_amended {src_items dst_items : List JVal}
    (hS : (src_items.map assignSid).Nodup)
    (hD : (dst_items.map assignSid).Nodup)
    (hT : ∀ d ∈ dst_items, pyTruthy d = true) :
    (∀ s ∈ src_items,
      exactlyOne
        (inMatchedUnchangedSrc src_items dst_items
          (set_sync_id s (assignSid s)))
        (inUpdateSrc src_items dst_items (set_sync_id s (assignSid s)))
        (inCreateSrc src_items dst_items (set_sync_id s (assignSid s)))) ∧
    (∀ d ∈ dst_items,
      exactlyOne
        (inMatchedUnchangedDst src_items dst_items d)
        (inUpdateDst src_items dst_items d)
        (inDeleteDst src_items dst_items d)) := by
  obtain ⟨hplan, hpairs⟩ := plan_eq_exactMatch src_items dst_items
  set MS := src_items.foldl
    (fun m s => objSet m (assignSid s) (set_sync_id s (assignSid s))) []
    with hMSd
  set MD := dst_items.foldl (fun m d => objSet m (assignSid d) d) [] with hMDd
  have hndS : (MS.map Prod.fst).Nodup := by
    rw [hMSd]
    exact nodup_keys_foldl _ _ src_items [] (by simp)
  have hvalS : ∀ p ∈ MS, p.1 = get_sync_id p.2 := by
    intro p hp
    rw [hMSd] at hp
    rcases mem_foldl_objSet _ _ src_items [] p hp with h0 | ⟨s, hs, rfl⟩
    · cases h0
    · dsimp only
      rw [get_sync_id_set_sync_id]
  have hvalD : ∀ p ∈ MD, p.1 = assignSid p.2 ∧ p.2 ∈ dst_items := by
    intro p hp
    rw [hMDd] at hp
    rcases mem_foldl_objSet _ _ dst_items [] p hp with h0 | ⟨d, hd, rfl⟩
    · cases h0
    · exact ⟨rfl, hd⟩
  constructor
  · intro s hs
    simp only [exactlyOne, inMatchedUnchangedSrc, inUpdateSrc, inCreateSrc]
    have hget : objGet MS (assignSid s) =
        some (set_sync_id s (assignSid s)) := by
      rw [hMSd]
      exact objGet_foldl_objSet_mem _ _ src_items [] hS hs
    have hmem : ((assignSid s), set_sync_id s (assignSid s)) ∈ MS :=
      objGet_mem hget
    have hkeyx : ∀ sid', (sid', set_sync_id s (assignSid s)) ∈ MS →
        sid' = assignSid s := by
      intro sid' hm
      have hv := hvalS _ hm
      dsimp only at hv
      rw [hv, get_sync_id_set_sync_id]
    rcases hMD : objGet MD (assignSid s) with _ | d
    · refine Or.inr (Or.inr ⟨?_, ?_, ?_⟩)
      · rintro ⟨d0, hp, _⟩
        rw [hpairs] at hp
        obtain ⟨sid0, hm0, hg0, _⟩ := exactMatch_pairs_mem.mp hp
        rw [hkeyx sid0 hm0, hMD] at hg0
        exact Option.noConfusion hg0
      · rintro ⟨d0, hp⟩
        rw [hplan] at hp
        dsimp only at hp
        obtain ⟨hp0, _⟩ := List.mem_filter.mp hp
        obtain ⟨sid0, hm0, hg0, _⟩ := exactMatch_pairs_mem.mp hp0
        rw [hkeyx sid0 hm0, hMD] at hg0
        exact Option.noConfusion hg0
      · rw [hplan]
        dsimp only
        refine exactMatch_creates_mem.mpr ⟨assignSid s, hmem, ?_⟩
        intro d0 hd0
        rw [hMD] at hd0
        exact Option.noConfusion hd0
    · have hdmem : ((assignSid s), d) ∈ MD := objGet_mem hMD
      have htr : pyTruthy d = true := hT d (hvalD _ hdmem).2
      have hpair : (set_sync_id s (assignSid s), d) ∈ (exactMatch MS MD).1 :=
        exactMatch_pairs_mem.mpr ⟨assignSid s, hmem, hMD, htr⟩
      have hnotc : (set_sync_id s (assignSid s)) ∉ (exactMatch MS MD).2 := by
        intro hcr
        obtain ⟨sid0, hm0, hall⟩ := exactMatch_creates_mem.mp hcr
        rw [hkeyx sid0 hm0] at hall
        rw [hall d hMD] at htr
        exact Bool.noConfusion htr
      have huniq : ∀ d0,
          (set_sync_id s (assignSid s), d0) ∈ (exactMatch MS MD).1 →
          d0 = d := by
        intro d0 hp0
        obtain ⟨sid0, hm0, hg0, _⟩ := exactMatch_pairs_mem.mp hp0
        rw [hkeyx sid0 hm0, hMD] at hg0
        exact (Option.some.inj hg0).symm
      rcases hdf : items_differ (set_sync_id s (assignSid s)) d with _ | _
      · refine Or.inl ⟨⟨d, ?_, hdf⟩, ?_, ?_⟩
        · rw [hpairs]
          exact hpair
        · rintro ⟨d0, hp⟩
          rw [hplan] at hp
          dsimp only at hp
          obtain ⟨hp0, hdf0⟩ := List.mem_filter.mp hp
          dsimp only at hdf0
          rw [huniq d0 hp0, hdf] at hdf0
          exact Bool.noConfusion hdf0
        · intro hc
          rw [hplan] at hc
          dsimp only at hc
          exact hnotc hc
      · refine Or.inr (Or.inl ⟨?_, ⟨d, ?_⟩, ?_⟩)
        · rintro ⟨d0, hp, hdf0⟩
          rw [hpairs] at hp
          rw [huniq d0 hp, hdf] at hdf0
          exact Bool.noConfusion hdf0
        · rw [hplan]
          dsimp only
          refine List.mem_filter.mpr ⟨hpair, ?_⟩
          dsimp only
          exact hdf
        · intro hc
          rw [hplan] at hc
          dsimp only at hc
          exact hnotc hc
  · intro d hd
    simp only [exactlyOne, inMatchedUnchangedDst, inUpdateDst, inDeleteDst]
    have hdget : objGet MD (assignSid d) = some d := by
      rw [hMDd]
      exact objGet_foldl_objSet_mem _ _ dst_items [] hD hd
    have hdmem : ((assignSid d), d) ∈ MD := objGet_mem hdget
    have htr := hT d hd
    have hkeyd : ∀ sid', (sid', d) ∈ MD → sid' = assignSid d :=
      fun sid' hm => (hvalD _ hm).1
    rcases hMS : objGet MS (assignSid d) with _ | x0
    · refine Or.inr (Or.inr ⟨?_, ?_, ?_⟩)
      · rintro ⟨x1, hp, _⟩
        rw [hpairs] at hp
        obtain ⟨sid1, hm1, hg1, _⟩ := exactMatch_pairs_mem.mp hp
        rw [hkeyd sid1 (objGet_mem hg1)] at hm1
        exact (objGet_eq_none MS (assignSid d)).mp hMS
          (List.mem_map_of_mem Prod.fst hm1)
      · rintro ⟨x1, hp⟩
        rw [hplan] at hp
        dsimp only at hp
        obtain ⟨hp0, _⟩ := List.mem_filter.mp hp
        obtain ⟨sid1, hm1, hg1, _⟩ := exactMatch_pairs_mem.mp hp0
        rw [hkeyd sid1 (objGet_mem hg1)] at hm1
        exact (objGet_eq_none MS (assignSid d)).mp hMS
          (List.mem_map_of_mem Prod.fst hm1)
      · rw [hplan]
        dsimp only
        refine findDeletes_mem.mpr ⟨assignSid d, hdmem, ?_⟩
        unfold objHas
        rw [hMS]
    · have hx0mem : ((assignSid d), x0) ∈ MS := objGet_mem hMS
      have hpair : (x0, d) ∈ (exactMatch MS MD).1 :=
        exactMatch_pairs_mem.mpr ⟨assignSid d, hx0mem, hdget, htr⟩
      have huniq : ∀ x1, (x1, d) ∈ (exactMatch MS MD).1 → x1 = x0 := by
        intro x1 hp1
        obtain ⟨sid1, hm1, hg1, _⟩ := exactMatch_pairs_mem.mp hp1
        rw [hkeyd sid1 (objGet_mem hg1)] at hm1
        have hh := objGet_eq_of_mem_nodup hm1 hndS
        rw [hMS] at hh
        exact (Option.some.inj hh).symm
      have hnotdel : d ∉ findDeletes MD MS := by
        intro hdel
        obtain ⟨sid0, hm0, hhas⟩ := findDeletes_mem.mp hdel
        rw [hkeyd sid0 hm0] at hhas
        unfold objHas at hhas
        rw [hMS] at hhas
        exact Bool.noConfusion hhas
      rcases hdf : items_differ x0 d with _ | _
      · refine Or.inl ⟨⟨x0, ?_, hdf⟩, ?_, ?_⟩
        · rw [hpairs]
          exact hpair
        · rintro ⟨x1, hp⟩
          rw [hplan] at hp
          dsimp only at hp
          obtain ⟨hp0, hdf0⟩ := List.mem_filter.mp hp
          dsimp only at hdf0
          rw [huniq x1 hp0, hdf] at hdf0
          exact Bool.noConfusion hdf0
        · intro hdel
          rw [hplan] at hdel
          dsimp only at hdel
          exact hnotdel hdel
      · refine Or.inr (Or.inl ⟨?_, ⟨x0, ?_⟩, ?_⟩)
        · rintro ⟨x1, hp, hdf0⟩
          rw [hpairs] at hp
          rw [huniq x1 hp, hdf] at hdf0
          exact Bool.noConfusion hdf0
        · rw [hplan]
          dsimp only
          refine List.mem_filter.mpr ⟨hpair, ?_⟩
          dsimp only
          exact hdf
        · intro hdel
          rw [hplan] at hdel
          dsimp only at hdel
          exact hnotdel hdel

/-- C1 [counterexample]: when two source records carry the same fingerprint,
the dict insert `src_map[sid] = s` silently drops the earlier record: here
`plan()` returns only the second record as a create and the first (mutated)
source record appears in no bucket and in no matched pair, contradicting the
claimed partition. -/
theorem c1_counterexample :
    assignSid c1srcA = assignSid c1srcB ∧
    plan [c1srcA, c1srcB] [] = ([set_sync_id c1srcB "k"], [], []) ∧
    planMatchedPairs [c1srcA, c1srcB] [] = [] ∧
    set_sync_id c1srcA "k" ≠ set_sync_id c1srcB "k" ∧
    set_sync_id c1srcA "k" ∉ (plan [c1srcA, c1srcB] []).1 :=
  ⟨by decide, by decide, by decide, by decide, by decide⟩

theorem c1_witness :
    exactlyOne
      (inMatchedUnchangedSrc [c1wSrc] [c1wDst]
        (set_sync_id c1wSrc (assignSid c1wSrc)))
      (inUpdateSrc [c1wSrc] [c1wDst]
        (set_sync_id c1wSrc (assignSid c1wSrc)))
      (inCreateSrc [c1wSrc] [c1wDst]
        (set_sync_id c1wSrc (assignSid c1wSrc))) ∧
    exactlyOne
      (inMatchedUnchangedDst [c1wSrc] [c1wDst] c1wDst)
      (inUpdateDst [c1wSrc] [c1wDst] c1wDst)
      (inDeleteDst [c1wSrc] [c1wDst] c1wDst) :=
  ⟨(@c1_partition_amended [c1wSrc] [c1wDst] (by decide) (by decide)
      (by decide)).1 c1wSrc (by decide),
   (@c1_partition_amended [c1wSrc] [c1wDst] (by decide) (by decide)
      (by decide)).2 c1wDst (by decide)⟩
